import Mathlib

/-!
Verification of the course-resolution engine and the transactional
file-move/undo subsystem of the school-file-classifier repository.

The Python sources are shallowly embedded: strings become `List Char`,
filesystem paths become lists of name components, the filesystem itself
becomes the (finite, duplicate-free) list of paths of the files that
currently exist, SQLite query results become plain lists of row values,
and every fallible external effect (history-file snapshot copy, HTTP
call to the classification API) is an explicit input of the embedded
function.  Each embedded definition carries a comment pointing at the
source location it was translated from.
-/

namespace SFC

/-- Strings are modelled as lists of characters (`str` in the source). -/
abbrev Str := List Char

/-- Python's substring test `needle in hay`. -/
def strContains : Str → Str → Bool
  | [], needle => needle.isEmpty
  | c :: t, needle => needle.isPrefixOf (c :: t) || strContains t needle

/-- Python's `str.lower()` (ASCII case folding suffices for the data involved). -/
def strLower (s : Str) : Str := s.map Char.toLower

/-- Python's `str.strip()` (leading and trailing whitespace removed). -/
def stripWs (s : Str) : Str :=
  ((s.dropWhile Char.isWhitespace).reverse.dropWhile Char.isWhitespace).reverse

/-- Python's `str.rstrip(chars)`: drop trailing characters drawn from `chars`. -/
def rstripSet (chars : Str) (s : Str) : Str :=
  (s.reverse.dropWhile (fun c => chars.contains c)).reverse

/-- Python's `str.lstrip(chars)`: drop leading characters drawn from `chars`. -/
def lstripSet (chars : Str) (s : Str) : Str :=
  s.dropWhile (fun c => chars.contains c)

/-- The decimal digit character for `n < 10` (used to mirror `str(counter)`). -/
def digitCh (n : Nat) : Char :=
  if n = 0 then '0' else if n = 1 then '1' else if n = 2 then '2'
  else if n = 3 then '3' else if n = 4 then '4' else if n = 5 then '5'
  else if n = 6 then '6' else if n = 7 then '7' else if n = 8 then '8'
  else '9'

/-- Decimal rendering of a natural number, mirroring Python's `str(n)` for the
counter values interpolated into rename candidates. -/
def natToChars (n : Nat) : Str :=
  if n < 10 then [digitCh n]
  else natToChars (n / 10) ++ [digitCh (n % 10)]
decreasing_by exact Nat.div_lt_self (by omega) (by omega)

/-- Decimal reading, used only to prove `natToChars` injective. -/
def charsToNat (s : Str) : Nat := s.foldl (fun a c => a * 10 + (c.toNat - 48)) 0

/-! Embedding of `file_ops.py` — file moves with undo support

Filenames are character lists, a filesystem path is the list of its name
components, and the filesystem state is the duplicate-free list of paths of
the regular files that currently exist (directories are implicit: `mkdir`
is a no-op in this model, and `parents=True, exist_ok=True` means it never
fails).  `shutil.move` of a file onto an existing file path replaces it
(POSIX `os.rename` semantics). -/
/-- A path component (file or directory name). -/
abbrev FName := List Char

/-- An absolute filesystem path, as its list of components. -/
abbrev FPath := List FName

/-- The set of files that exist, as a duplicate-free list of paths. -/
abbrev Fs := List FPath

/-- The `Path.exists()` against the modelled filesystem. -/
def fexists (fs : Fs) (p : FPath) : Bool := decide (p ∈ fs)

/-- The `shutil.move(src, dst)` where `dst` is a full file path: the file leaves
`src` and (re)appears at `dst`, replacing any file already there. -/
def fsMove (fs : Fs) (src dst : FPath) : Fs := List.insert dst (fs.erase src)

/-- The `path.stem`/`path.suffix` split point: index of the last `'.'` in a name,
when it is neither at position 0 nor at the final position (pathlib's rule). -/
def nameSplitIdx (name : FName) : Option Nat :=
  match (name.reverse.findIdx? (fun c => c = '.')) with
  | none => none
  | some j =>
    let i := name.length - 1 - j
    if 0 < i ∧ i < name.length - 1 then some i else none

/-- The `PurePath.stem` of a file name. -/
def pathStem (name : FName) : FName :=
  match nameSplitIdx name with
  | some i => name.take i
  | none => name

/-- The `PurePath.suffix` of a file name. -/
def pathSuffix (name : FName) : FName :=
  match nameSplitIdx name with
  | some i => name.drop i
  | none => []

/-- The file name `f"{stem} ({counter}){suffix}"` built by `_unique_name`. -/
def renameCandName (stem sfx : Str) (k : Nat) : FName :=
  stem ++ ' ' :: '(' :: (natToChars k ++ ')' :: sfx)

/-- The candidate path `parent / f"{stem} ({counter}){suffix}"`. -/
def renameCand (parent : FPath) (stem sfx : Str) (k : Nat) : FPath :=
  parent ++ [renameCandName stem sfx k]

/-- The `while True` search of `_unique_name` (file_ops.py lines 92-97),
given enough fuel; `fs.length + 1` candidates always contain an unused one. -/
def uniqueNameAux (fs : Fs) (parent : FPath) (stem sfx : Str) :
    Nat → Nat → Option FPath
  | 0, _ => none
  | fuel + 1, counter =>
    let candidate := renameCand parent stem sfx counter
    if fexists fs candidate then uniqueNameAux fs parent stem sfx fuel (counter + 1)
    else some candidate

/-- The `_unique_name(path)` (file_ops.py lines 87-97): append `" (1)"`, `" (2)"`, …
before the extension until an unused name is found.  The `.getD p` fallback is
dead code: `uniqueNameAux_isSome` below shows the search always succeeds. -/
def _unique_name (fs : Fs) (p : FPath) : FPath :=
  let name := p.getLastD []
  (uniqueNameAux fs p.dropLast (pathStem name) (pathSuffix name) (fs.length + 1) 1).getD p

/-- The `MoveRecord` (file_ops.py lines 8-11). -/
structure MoveRecord where
  original : FPath
  destination : FPath
deriving DecidableEq, Repr

/-- The `MoveResult` (file_ops.py lines 14-17). -/
structure MoveResult where
  success : List MoveRecord
  skipped : List (FPath × Str)
deriving DecidableEq, Repr

/-- The state a `FileOps` instance acts on: the filesystem plus the undo
stack.  The stack's most recent batch is at the head (Python appends to and
pops from the end of `_undo_stack`; both encode the same LIFO discipline). -/
structure FileOpsState where
  fs : Fs
  undo_stack : List (List MoveRecord)
deriving DecidableEq, Repr

/-- Loop body of `FileOps.move_files` (file_ops.py lines 39-59) for one
`(src, dest_dir)` pair, threading the filesystem, the result under
construction, and the per-call batch list. -/
def moveStep (on_conflict : Str) (st : Fs × MoveResult × List MoveRecord)
    (pair : FPath × FPath) : Fs × MoveResult × List MoveRecord :=
  let (fs, result, batch) := st
  let (src, dest_dir) := pair
  if ¬ fexists fs src then
    (fs, { result with skipped := result.skipped ++ [(src, "File no longer exists".data)] },
      batch)
  else
    -- dest_dir.mkdir(parents=True, exist_ok=True): a no-op on the path model
    let dest := dest_dir ++ [src.getLastD []]
    if fexists fs dest then
      if on_conflict = "skip".data then
        (fs, { result with
                skipped := result.skipped ++ [(src, "File already exists at destination".data)] },
          batch)
      else
        let dest' := if on_conflict = "rename".data then _unique_name fs dest else dest
        let fs' := if on_conflict = "overwrite".data then fs.erase dest else fs
        let record : MoveRecord := ⟨src, dest'⟩
        (fsMove fs' src dest', { result with success := result.success ++ [record] },
          batch ++ [record])
    else
      let record : MoveRecord := ⟨src, dest⟩
      (fsMove fs src dest, { result with success := result.success ++ [record] },
        batch ++ [record])

/-- The `FileOps.move_files` (file_ops.py lines 26-64): move each pair in input
order, then push the batch onto the undo stack iff it is non-empty. -/
def move_files (st : FileOpsState) (files : List (FPath × FPath))
    (on_conflict : Str) : FileOpsState × MoveResult :=
  let (fs, result, batch) := files.foldl (moveStep on_conflict) (st.fs, ⟨[], []⟩, [])
  (⟨fs, if batch.isEmpty then st.undo_stack else batch :: st.undo_stack⟩, result)

/-- The `FileOps.can_undo` (file_ops.py lines 66-68). -/
def can_undo (st : FileOpsState) : Bool := ¬ st.undo_stack.isEmpty

/-- Loop body of `FileOps.undo_last` (file_ops.py lines 78-82): move a record
back iff its destination still exists, collecting the records undone. -/
def undoStep (st : Fs × List MoveRecord) (r : MoveRecord) : Fs × List MoveRecord :=
  let (fs, undone) := st
  if fexists fs r.destination then
    -- record.original.parent.mkdir(...): a no-op on the path model
    (fsMove fs r.destination r.original, undone ++ [r])
  else (fs, undone)

/-- The `FileOps.undo_last` (file_ops.py lines 70-84): pop the most recent batch
and replay it backwards; an empty stack returns an empty record list. -/
def undo_last (st : FileOpsState) : FileOpsState × List MoveRecord :=
  match st.undo_stack with
  | [] => (st, [])
  | batch :: rest =>
    let (fs, undone) := batch.foldl undoStep (st.fs, [])
    (⟨fs, rest⟩, undone)

/-- Concrete inputs refuting C2 as stated: initial files `d/f` and `c/f`,
batch `[(d/f → directory e), (c/f → directory d)]`. -/
def cexStateC2 : FileOpsState := ⟨[[['d'], ['f']], [['c'], ['f']]], []⟩

/-- The move batch of the C2 counterexample. -/
def cexFilesC2 : List (FPath × FPath) :=
  [([['d'], ['f']], [['e']]), ([['c'], ['f']], [['d']])]

/-! Embedding of `llm.py` — external filename sub-classification

The HTTP call is the only effect: the whole `try` block (transport error,
HTTP error status, malformed JSON, missing fields) is summarised by an
`Except Unit Str` input holding the stripped message content on success.
`str.splitlines` is modelled as splitting on `'\n'` (the claims do not
depend on the exact terminator set). -/
/-- The `VALID_CATEGORIES` (llm.py line 8).  The Python value is a set iterated
only for equality tests against pairwise-distinct patterns, so a fixed
enumeration order is observationally equivalent. -/
def VALID_CATEGORIES : List Str :=
  ["Lectures".data, "Tutorials".data, "Assignments".data, "Other".data]

/-- The `_normalise` (llm.py lines 23-32): strip, drop trailing periods, accept
exact or case-insensitive (also singular) category names, else `Other`. -/
def _normalise (text : Str) : Str :=
  let cleaned := stripWs (rstripSet ".".data (stripWs text))
  if cleaned ∈ VALID_CATEGORIES then cleaned
  else
    let lower := strLower cleaned
    match VALID_CATEGORIES.find? (fun cat =>
        (lower == strLower cat) || (lower == rstripSet "s".data (strLower cat))) with
    | some cat => cat
    | none => "Other".data

/-- One iteration of the line-parsing loop (llm.py lines 79-88): find the
first non-digit character, strip the separator run after the leading number,
and normalise; an all-digit line yields `Other` (the `for … else` branch). -/
def parseLine (line : Str) : Str :=
  match line.findIdx? (fun c => ¬ c.isDigit) with
  | some i => _normalise (stripWs (lstripSet ".):- ".data (line.drop i)))
  | none => "Other".data

/-- The parsing loop over `answer.splitlines()` (llm.py lines 74-88):
stripped empty lines are skipped, every other line contributes exactly one
normalised label. -/
def parseAnswer (answer : Str) : List Str :=
  (((answer.splitOn '\n').map stripWs).filter (fun l => ¬ l.isEmpty)).map parseLine

/-- The `classify_batch` (llm.py lines 35-94). -/
def classify_batch (filenames : List Str) (api_key : Str)
    (response : Except Unit Str) : List Str :=
  if api_key.isEmpty || filenames.isEmpty then
    List.replicate filenames.length "Other".data
  else
    match response with
    | .error _ => List.replicate filenames.length "Other".data
    | .ok answer =>
      -- answer = resp.json()["choices"][0]["message"]["content"].strip()
      let results := parseAnswer (stripWs answer)
      -- while len(results) < len(filenames): results.append("Other")
      let padded := results ++ List.replicate (filenames.length - results.length) "Other".data
      -- return results[: len(filenames)]
      padded.take filenames.length

/-! Embedding of `platforms/` — adapters, registry and detector

URLs stay plain strings.  `urllib.parse.urlparse` is modelled by
`urlNetloc` below; the `try/except` around it in the source is dead in this
model because the embedded function is total (`urlparse` only raises for
malformed ports / IPv6 brackets, which none of the claims exercise).
The two adapter methods that run SQL against the history snapshot
(`discover_course_name`, `infer_course_from_visits`) close over the SQLite
cursor in the source; here they are function-valued fields supplied by the
environment, so every theorem about the engine quantifies over them. -/
/-- Characters allowed in a URL scheme after the first (`urllib.parse`). -/
def isSchemeChar (c : Char) : Bool :=
  c.isAlpha || c.isDigit || c = '+' || c = '-' || c = '.'

/-- Strip a leading `scheme:` when the prefix is a well-formed scheme. -/
def dropScheme (url : Str) : Str :=
  match url.findIdx? (fun c => c = ':') with
  | some i =>
    if 0 < i ∧ (url.take i).all isSchemeChar ∧ (url.take 1).all Char.isAlpha then
      url.drop (i + 1)
    else url
  | none => url

/-- The `urlparse(url).netloc`: the authority component after `"//"`, up to the
next `/`, `?` or `#`; empty when the URL carries no network location. -/
def urlNetloc (url : Str) : Str :=
  let rest := dropScheme url
  if "//".data.isPrefixOf rest then
    (rest.drop 2).takeWhile (fun c => ¬ (c = '/' ∨ c = '?' ∨ c = '#'))
  else []

/-- A platform adapter (platforms/base.py): URL recognition, course-ID
extraction, and the two history-backed lookups as supplied capabilities. -/
structure Adapter where
  name : Str
  url_fingerprints : List Str
  matches_url : Str → Str → Bool
  extract_course_id : Str → Option Str
  discover_course_name : Str → Str → Str
  infer_course_from_visits : Int → Str → Option Str

/-- The `re.search` for a literal followed by a non-empty run of `good`
characters: scan left to right, return the first such (greedy) run. -/
def searchLitRun (lit : Str) (good : Char → Bool) : Str → Option Str
  | [] => none
  | c :: rest =>
    if lit.isPrefixOf (c :: rest) &&
        !(((c :: rest).drop lit.length).takeWhile good).isEmpty then
      some (((c :: rest).drop lit.length).takeWhile good)
    else searchLitRun lit good rest

/-- The character class `[A-Za-z0-9_-]` (insendi course IDs). -/
def isWordDash (c : Char) : Bool := c.isAlphanum || c = '_' || c = '-'

/-- Greedy parse of `_\d+_\d+` at the head of a string (blackboard IDs). -/
def parseBbId (s : Str) : Option Str :=
  match s with
  | '_' :: rest =>
    let d1 := rest.takeWhile Char.isDigit
    if d1.isEmpty then none
    else
      match rest.drop d1.length with
      | '_' :: rest2 =>
        let d2 := rest2.takeWhile Char.isDigit
        if d2.isEmpty then none
        else some ('_' :: (d1 ++ '_' :: d2))
      | _ => none
  | _ => none

/-- The `re.search` for `(?:lit₁|lit₂|…)(_\d+_\d+)`: leftmost position wins, the
alternatives are tried in order at each position. -/
def searchBbId (lits : List Str) : Str → Option Str
  | [] => none
  | c :: rest =>
    match lits.findSome? (fun lit =>
        if lit.isPrefixOf (c :: rest) then parseBbId ((c :: rest).drop lit.length)
        else none) with
    | some cid => some cid
    | none => searchBbId lits rest

/-- The `CanvasAdapter` (platforms/canvas.py): `/courses/(\d+)` extraction,
substring URL matching, fingerprints for detection. -/
def canvasAdapter (discover : Str → Str → Str)
    (infer : Int → Str → Option Str) : Adapter :=
  { name := "Canvas".data
    url_fingerprints := [".instructure.com".data, "/download?download_frd=".data]
    matches_url := fun url domain => strContains url domain
    extract_course_id := fun url => searchLitRun "/courses/".data Char.isDigit url
    discover_course_name := discover
    infer_course_from_visits := infer }

/-- The `MoodleAdapter` (platforms/moodle.py): only `/course/view.php?id=(\d+)`
is extracted (`_MOD_RE` is declared but `extract_course_id` never uses it). -/
def moodleAdapter (discover : Str → Str → Str)
    (infer : Int → Str → Option Str) : Adapter :=
  { name := "Moodle".data
    url_fingerprints := ["/pluginfile.php/".data, "/mod/resource/view.php".data]
    matches_url := fun url domain => strContains url domain
    extract_course_id := fun url =>
      searchLitRun "/course/view.php?id=".data Char.isDigit url
    discover_course_name := discover
    infer_course_from_visits := infer }

/-- The `BlackboardAdapter` (platforms/blackboard.py): `_COURSE_RE` then
`_ULTRA_RE`, both capturing `_\d+_\d+`. -/
def blackboardAdapter (discover : Str → Str → Str)
    (infer : Int → Str → Option Str) : Adapter :=
  { name := "Blackboard".data
    url_fingerprints := ["/bbcswebdav/".data, "/webapps/blackboard/".data,
      "/ultra/courses/".data]
    matches_url := fun url domain => strContains url domain
    extract_course_id := fun url =>
      match searchBbId ["/courses/".data, "course_id=".data] url with
      | some cid => some cid
      | none => searchBbId ["/ultra/courses/".data] url
    discover_course_name := discover
    infer_course_from_visits := infer }

/-- The `InsendiAdapter` (platforms/insendi.py): `/courses/([A-Za-z0-9_-]+)`. -/
def insendiAdapter (discover : Str → Str → Str)
    (infer : Int → Str → Option Str) : Adapter :=
  { name := "Insendi".data
    url_fingerprints := ["/api/v1/imp/".data, "insendi.com".data]
    matches_url := fun url domain => strContains url domain
    extract_course_id := fun url => searchLitRun "/courses/".data isWordDash url
    discover_course_name := discover
    infer_course_from_visits := infer }

/-- The history-backed methods of the four concrete adapters, abstracted
from the SQLite cursor they close over in the source. -/
structure AdapterOracles where
  canvas_discover : Str → Str → Str
  canvas_infer : Int → Str → Option Str
  moodle_discover : Str → Str → Str
  moodle_infer : Int → Str → Option Str
  blackboard_discover : Str → Str → Str
  blackboard_infer : Int → Str → Option Str
  insendi_discover : Str → Str → Str
  insendi_infer : Int → Str → Option Str

/-- The `ALL_ADAPTERS` (platforms/__init__.py lines 12-17): the fixed priority
order Canvas, Moodle, Blackboard, Insendi. -/
def ALL_ADAPTERS (h : AdapterOracles) : List Adapter :=
  [canvasAdapter h.canvas_discover h.canvas_infer,
   moodleAdapter h.moodle_discover h.moodle_infer,
   blackboardAdapter h.blackboard_discover h.blackboard_infer,
   insendiAdapter h.insendi_discover h.insendi_infer]

/-- The `get_adapter` (platforms/__init__.py lines 19-24): `ADAPTER_MAP` is keyed
by lower-cased adapter name, so lookup compares lower-cased names. -/
def get_adapter (h : AdapterOracles) (platform_type : Str) : Option Adapter :=
  (ALL_ADAPTERS h).find? (fun a => strLower a.name == strLower platform_type)

/-- One row of the detector's downloads query (tab_url, referrer). -/
structure HRow where
  tab_url : Str
  referrer : Str

/-- The `DetectedPlatform` (platforms/detector.py lines 13-19). -/
structure DetectedPlatform where
  domain : Str
  platform_type : Str
  adapter : Adapter
  download_count : Nat

/-- One `domain_urls.setdefault(...).add(url)` / `domain_counts[...] += 1`
update (platforms/detector.py lines 58-59).  The per-domain URL collection is
a Python set consulted only through an any-fingerprint test, so an
insertion-ordered duplicate-free list is observationally equivalent. -/
def insertUrl (acc : List (Str × List Str × Nat)) (domain url : Str) :
    List (Str × List Str × Nat) :=
  match acc with
  | [] => [(domain, [url], 1)]
  | (d, us, n) :: t =>
    if d == domain then (d, (if url ∈ us then us else us ++ [url]), n + 1) :: t
    else (d, us, n) :: insertUrl t domain url

/-- The accumulation loop of `detect_from_history` (detector.py lines 44-59):
per domain (keyed in first-appearance order, as a Python dict), the set of
URLs seen and the occurrence count. -/
def collectDomains (rows : List HRow) : List (Str × List Str × Nat) :=
  (rows.filter (fun r => !r.tab_url.isEmpty || !r.referrer.isEmpty)).foldl
    (fun acc row =>
      [row.tab_url, row.referrer].foldl
        (fun acc url =>
          if url.isEmpty then acc
          else
            let domain := urlNetloc url
            if domain.isEmpty then acc
            else insertUrl acc domain url)
        acc)
    []

/-- The `PlatformDetector._domain_matches` (detector.py lines 83-95). -/
def _domain_matches (domain : Str) (urls : List Str) (a : Adapter) : Bool :=
  a.url_fingerprints.any (fun fp =>
    strContains domain fp || urls.any (fun u => strContains u fp))

/-- The `PlatformDetector.detect_from_history` (detector.py lines 28-81): match
each domain against the adapters in priority order (first match wins; the
`matched_domains` guard in the source is redundant because dict keys are
unique), then stable-sort descending by download count. -/
def detect_from_history (adapters : List Adapter) (rows : List HRow) :
    List DetectedPlatform :=
  let results := (collectDomains rows).filterMap (fun e =>
    match adapters.find? (fun a => _domain_matches e.1 e.2.1 a) with
    | some a => some ⟨e.1, strLower a.name, a, e.2.2⟩
    | none => none)
  results.mergeSort (fun p q => decide (q.download_count ≤ p.download_count))

/-! Embedding of `classifier.py` — the resolution engine

`Path(target_path)` only normalises separators for the strings that appear
here, so path strings are carried verbatim; `Path.exists` and
`Path(p).parent.resolve()` (whose `OSError`/`ValueError` is `none`) are
oracles, as is the pre-resolved downloads directory. -/
/-- One row of the `downloads` query in `_query_downloads` (classifier.py
lines 144-152); `referrer` is `none` when the column is NULL. -/
structure DownloadRow where
  tab_url : Str
  target_path : Str
  referrer : Option Str
  start_time : Int

/-- The `ClassifiedFile` (classifier.py lines 17-24). -/
structure ClassifiedFile where
  path : Str
  course_id : Str
  course_name : Str
  download_url : Str
  platform : Str
  sub_type : Str
deriving DecidableEq, Repr

/-- The `NewCourse` (classifier.py lines 27-31). -/
structure NewCourse where
  course_id : Str
  suggested_name : Str
deriving DecidableEq, Repr

/-- One `{"domain": …, "type": …}` platform entry (`type` is a Lean
keyword, hence `ptype`). -/
structure PlatformConfig where
  domain : Str
  ptype : Str

/-- The configuration snapshot consumed by the engine. -/
structure Config where
  platforms : List PlatformConfig
  courses : List (Str × Str)
  groq_api_key : Str

/-- Filesystem oracles used by `_query_downloads`. -/
structure FsOracle where
  path_exists : Str → Bool
  resolve_parent : Str → Option Str
  download_dir_resolved : Str

/-- The `referrer or ""` for an optional column value. -/
def optStr (o : Option Str) : Str := o.getD []

/-- Python `a or b` on strings: the empty string is falsy. -/
def pyOr (a b : Str) : Str := if a.isEmpty then b else a

/-- The `_resolve_adapter` (classifier.py lines 48-80): first the configured
platforms whose domain occurs in the URL and whose adapter confirms the
match; failing that, a fallback that compares the configured domains with
the URL's network location by containment in either direction — this second
loop does not consult `matches_url`. -/
def _resolve_adapter (getAdapter : Str → Option Adapter) (url : Str)
    (platform_configs : List PlatformConfig) : Option (Adapter × Str) :=
  match platform_configs.findSome? (fun pcfg =>
      if strContains url pcfg.domain then
        match getAdapter pcfg.ptype with
        | some adapter =>
          if adapter.matches_url url pcfg.domain then some (adapter, pcfg.domain)
          else none
        | none => none
      else none) with
  | some r => some r
  | none =>
    let domain := urlNetloc url
    if domain.isEmpty then none
    else
      platform_configs.findSome? (fun pcfg =>
        if strContains domain pcfg.domain || strContains pcfg.domain domain then
          match getAdapter pcfg.ptype with
          | some adapter => some (adapter, pcfg.domain)
          | none => none
        else none)

/-- The attribution rule exactly as the specification words it (spec §4.3
step 4): the first configured platform whose domain appears in the URL and
whose adapter confirms the match — with no netloc fallback.  Defined solely
to compare the spec's sentence against `_resolve_adapter`. -/
def specResolveAdapter (getAdapter : Str → Option Adapter) (url : Str)
    (platform_configs : List PlatformConfig) : Option (Adapter × Str) :=
  platform_configs.findSome? (fun pcfg =>
    if strContains url pcfg.domain then
      match getAdapter pcfg.ptype with
      | some adapter =>
        if adapter.matches_url url pcfg.domain then some (adapter, pcfg.domain)
        else none
      | none => none
    else none)

/-- The netloc-containment fallback loop of `_resolve_adapter` (classifier.py
lines 63-80), as a named stage for the amended C1. -/
def fallbackResolveAdapter (getAdapter : Str → Option Adapter) (url : Str)
    (platform_configs : List PlatformConfig) : Option (Adapter × Str) :=
  let domain := urlNetloc url
  if domain.isEmpty then none
  else
    platform_configs.findSome? (fun pcfg =>
      if strContains domain pcfg.domain || strContains pcfg.domain domain then
        match getAdapter pcfg.ptype with
        | some adapter => some (adapter, pcfg.domain)
        | none => none
      else none)

/-- The `f"New Course ({course_id[:8]})"` (classifier.py line 202). -/
def newCourseName (course_id : Str) : Str :=
  "New Course (".data ++ course_id.take 8 ++ ")".data

/-- The running state of the `_query_downloads` row loop (classifier.py
lines 154-156).  `discover_calls` is proof-only instrumentation recording
each `(course_id, raw result)` passed through `discover_course_name`; it
influences no other field. -/
structure QueryState where
  seen_paths : List Str
  results : List ClassifiedFile
  discovered : List (Str × Str)
  discover_calls : List (Str × Str)

/-- Course-ID resolution for one row (classifier.py lines 185-194): tab URL,
then referrer, then visit-time inference, under Python truthiness. -/
def resolveCourseId (adapter : Adapter) (row : DownloadRow) (domain : Str) : Str :=
  pyOr (pyOr (optStr (adapter.extract_course_id row.tab_url))
      (optStr (adapter.extract_course_id (optStr row.referrer))))
    (optStr (adapter.infer_course_from_visits row.start_time domain))

/-- Course naming and emission for one matched row (classifier.py lines
185-215): configured mapping first, then the per-scan discovery cache, else
the `Unknown Course` sentinel; always emits exactly one `ClassifiedFile`. -/
def classifyRow (config : Config) (st : QueryState) (row : DownloadRow)
    (adapter : Adapter) (domain : Str) : QueryState :=
  let course_id := resolveCourseId adapter row domain
  let st2 :=
    if ¬ course_id.isEmpty ∧ (config.courses.lookup course_id).isSome then st
    else if ¬ course_id.isEmpty then
      if (st.discovered.lookup course_id).isSome then st
      else
        let name := adapter.discover_course_name course_id domain
        { st with
            discovered := st.discovered ++
              [(course_id, if name.isEmpty then newCourseName course_id else name)],
            discover_calls := st.discover_calls ++ [(course_id, name)] }
    else st
  let course_name :=
    if ¬ course_id.isEmpty ∧ (config.courses.lookup course_id).isSome then
      (config.courses.lookup course_id).getD []
    else if ¬ course_id.isEmpty then (st2.discovered.lookup course_id).getD []
    else "Unknown Course".data
  { st2 with
      results := st2.results ++
        [⟨row.target_path, pyOr course_id "unknown".data, course_name,
          row.tab_url, adapter.name, "Other".data⟩] }

/-- The body of the row loop of `_query_downloads` (classifier.py lines
158-215): existence filter, location filter (resolution errors skip the
row), case-insensitive dedup, adapter resolution on tab URL then referrer,
then `classifyRow`. -/
def queryStep (getAdapter : Str → Option Adapter) (fso : FsOracle)
    (config : Config) (st : QueryState) (row : DownloadRow) : QueryState :=
  if ¬ fso.path_exists row.target_path then st
  else
    match fso.resolve_parent row.target_path with
    | none => st
    | some parent =>
      if parent ≠ fso.download_dir_resolved then st
      else
        let path_key := strLower row.target_path
        if path_key ∈ st.seen_paths then st
        else
          let st1 := { st with seen_paths := path_key :: st.seen_paths }
          match (match _resolve_adapter getAdapter row.tab_url config.platforms with
                 | some r => some r
                 | none =>
                   _resolve_adapter getAdapter (optStr row.referrer) config.platforms) with
          | none => st1
          | some (adapter, domain) => classifyRow config st1 row adapter domain

/-- The full row loop, from the empty state. -/
def queryFold (getAdapter : Str → Option Adapter) (fso : FsOracle)
    (config : Config) (rows : List DownloadRow) : QueryState :=
  rows.foldl (queryStep getAdapter fso config) ⟨[], [], [], []⟩

/-- The `_query_downloads` (classifier.py lines 124-223), over the rows the SQL
query returned (domain-filtered, ordered by start time descending). -/
def _query_downloads (getAdapter : Str → Option Adapter) (fso : FsOracle)
    (config : Config) (rows : List DownloadRow) :
    List ClassifiedFile × List NewCourse :=
  let final := queryFold getAdapter fso config rows
  (final.results, final.discovered.map (fun p => ⟨p.1, p.2⟩))

/-- The SQL filter of `_query_downloads` (classifier.py lines 135-152):
`tab_url LIKE %domain% OR referrer LIKE %domain%` over all configured
platforms (a NULL referrer matches nothing). -/
def matchesAnyDomain (platforms : List PlatformConfig) (r : DownloadRow) : Bool :=
  platforms.any (fun p =>
    strContains r.tab_url p.domain || strContains (optStr r.referrer) p.domain)

/-- The row set `_query_downloads` receives: filtered and sorted descending
by start time (ties left in table order; SQLite fixes no tie order, the
claims do not depend on one). -/
def queriedRows (platforms : List PlatformConfig) (rows : List DownloadRow) :
    List DownloadRow :=
  (rows.filter (matchesAnyDomain platforms)).mergeSort
    (fun a b => decide (b.start_time ≤ a.start_time))

/-- The `Path(p).name` for a path string: the part after the final separator. -/
def pathBaseName (p : Str) : Str :=
  p.foldl (fun acc c => if c = '/' || c = '\\' then [] else acc ++ [c]) []

/-- The `cf.sub_type = cat` for each zipped pair (classifier.py lines 116-119);
files beyond the categories list keep their previous sub-type. -/
def applySubTypes (cfs : List ClassifiedFile) (cats : List Str) :
    List ClassifiedFile :=
  ((cfs.zip cats).map (fun pc => { pc.1 with sub_type := pc.2 })) ++
    cfs.drop cats.length

/-- Lifecycle events of the private history snapshot. -/
inductive ScanEvent where
  | tmpCreated
  | tmpUnlinked
deriving DecidableEq, Repr

/-- The one hard failure `scan_downloads` can propagate. -/
inductive ScanError where
  | copyFailed
deriving DecidableEq, Repr

/-- The world `scan_downloads` runs against: whether Chrome's history
database exists, whether `shutil.copy2` succeeds, the snapshot's download
rows, the adapter registry, the filesystem oracles and the classification
API outcome. -/
structure ScanEnv where
  chrome_db_exists : Bool
  copy_ok : Bool
  history_rows : List DownloadRow
  adapters : Str → Option Adapter
  fso : FsOracle
  llm_response : Except Unit Str

/-- The `scan_downloads` (classifier.py lines 83-121): missing history database
or empty platform list return empty results before the snapshot is created;
a copy failure propagates after the `finally` unlink; on success the results
optionally pass through `classify_batch` before being returned, and the
snapshot is unlinked in every case. -/
def scan_downloads (env : ScanEnv) (config : Config) :
    Except ScanError (List ClassifiedFile × List NewCourse) × List ScanEvent :=
  if ¬ env.chrome_db_exists then (.ok ([], []), [])
  else if config.platforms.isEmpty then (.ok ([], []), [])
  else if ¬ env.copy_ok then (.error .copyFailed, [.tmpCreated, .tmpUnlinked])
  else
    let qr := _query_downloads env.adapters env.fso config
      (queriedRows config.platforms env.history_rows)
    let results :=
      if ¬ qr.1.isEmpty ∧ ¬ config.groq_api_key.isEmpty then
        applySubTypes qr.1
          (classify_batch (qr.1.map (fun cf => pathBaseName cf.path))
            config.groq_api_key env.llm_response)
      else qr.1
    (.ok (results, qr.2), [.tmpCreated, .tmpUnlinked])

/-- A world with no Chrome history database. -/
def scanEnvNoDb : ScanEnv :=
  ⟨false, true, [], fun _ => none, ⟨fun _ => false, fun _ => none, []⟩, .error ()⟩

/-- A world where the snapshot copy fails. -/
def scanEnvCopyFail : ScanEnv :=
  ⟨true, false, [], fun _ => none, ⟨fun _ => false, fun _ => none, []⟩, .error ()⟩

/-- A configuration with one platform entry. -/
def scanCfgOnePlatform : Config := ⟨[⟨"x.edu".data, "canvas".data⟩], [], []⟩

/-- Adapter oracles whose history-backed lookups all fail (the counterexample
never reaches them). -/
def trivOracles : AdapterOracles :=
  ⟨fun _ _ => [], fun _ _ => none, fun _ _ => [], fun _ _ => none,
   fun _ _ => [], fun _ _ => none, fun _ _ => [], fun _ _ => none⟩

/-- Filesystem oracles under which every file exists directly inside the
downloads directory. -/
def allPassFso : FsOracle := ⟨fun _ => true, fun _ => some "D".data, "D".data⟩

/-- A configuration with one Canvas platform whose configured domain
strictly contains the host `bar.edu` (used by the C3 and C4 witnesses). -/
def cexC1Config : Config := ⟨[⟨"foo.bar.edu".data, "canvas".data⟩], [], []⟩

/-- The C1 configuration: the Canvas platform first (its domain strictly
contains the host of the C1 record's tab URL), then a Moodle platform whose
domain occurs in that record's referrer. -/
def c1Config : Config :=
  ⟨[⟨"foo.bar.edu".data, "canvas".data⟩,
    ⟨"moodle.school.edu".data, "moodle".data⟩], [], []⟩

/-- The C1 record.  The SQL domain filter admits it: the configured Moodle
domain occurs in its referrer.  Its tab URL contains no configured domain,
but the tab URL's host `bar.edu` is contained in the configured Canvas
domain `foo.bar.edu`. -/
def c1Row : DownloadRow :=
  ⟨"https://bar.edu/x".data, "f.pdf".data,
   some "https://moodle.school.edu/mod/resource/view.php?id=7".data, 0⟩

/-! Per-row behaviour of `_query_downloads` -/
/-- The two pre-dedup filters of the row loop (classifier.py lines 162-168):
the target file still exists, and its parent resolves exactly to the
downloads directory. -/
def passesFilters (fso : FsOracle) (r : DownloadRow) : Prop :=
  fso.path_exists r.target_path = true ∧
  fso.resolve_parent r.target_path = some fso.download_dir_resolved

/-- Two C3 witness rows: identical case-insensitive key, different casing. -/
def c3Rows : List DownloadRow :=
  [⟨"https://foo.bar.edu/courses/7/files/1".data, "D/A.pdf".data, none, 9⟩,
   ⟨"https://foo.bar.edu/courses/7/files/1".data, "D/a.pdf".data, none, 5⟩]

/-- A row whose tab URL carries an unmapped Canvas course ID, exercising
name discovery (the oracle returns the empty string, so the name is
synthesised). -/
def c4Row : DownloadRow :=
  ⟨"https://foo.bar.edu/courses/42/files/9".data, "g.pdf".data, none, 0⟩

theorem digitCh_toNat {n : Nat} (h : n < 10) : (digitCh n).toNat = 48 + n := by
  interval_cases n <;> decide

theorem digitCh_isDigit {n : Nat} (h : n < 10) : (digitCh n).isDigit = true := by
  interval_cases n <;> decide

theorem charsToNat_append_digit (a : Str) (c : Char) :
    charsToNat (a ++ [c]) = charsToNat a * 10 + (c.toNat - 48) := by
  simp [charsToNat, List.foldl_append]

theorem charsToNat_natToChars (n : Nat) : charsToNat (natToChars n) = n := by
  induction n using Nat.strong_induction_on with
  | _ n ih =>
    by_cases h : n < 10
    · rw [natToChars]
      simp only [h, if_pos]
      simp [charsToNat, digitCh_toNat h]
    · rw [natToChars]
      simp only [h, if_neg, not_false_iff]
      rw [charsToNat_append_digit]
      rw [ih (n / 10) (Nat.div_lt_self (by omega) (by omega))]
      rw [digitCh_toNat (Nat.mod_lt _ (by omega))]
      omega

theorem natToChars_inj {m n : Nat} (h : natToChars m = natToChars n) : m = n := by
  have := congrArg charsToNat h
  rwa [charsToNat_natToChars, charsToNat_natToChars] at this

theorem natToChars_digits (n : Nat) : ∀ c ∈ natToChars n, c.isDigit = true := by
  induction n using Nat.strong_induction_on with
  | _ n ih =>
    intro c hc
    by_cases h : n < 10
    · rw [natToChars] at hc
      simp only [h, if_pos, List.mem_singleton] at hc
      subst hc; exact digitCh_isDigit h
    · rw [natToChars] at hc
      simp only [h, if_neg, not_false_iff, List.mem_append, List.mem_singleton] at hc
      rcases hc with hc | hc
      · exact ih (n / 10) (Nat.div_lt_self (by omega) (by omega)) c hc
      · subst hc; exact digitCh_isDigit (Nat.mod_lt _ (by omega))

/-- Cancellation: two all-digit runs followed by the same `')' :: s` tail are
equal whenever the full strings are equal. -/
theorem digits_append_cancel {a b s : Str}
    (ha : ∀ c ∈ a, c.isDigit = true) (hb : ∀ c ∈ b, c.isDigit = true)
    (h : a ++ ')' :: s = b ++ ')' :: s) : a = b := by
  induction a generalizing b with
  | nil =>
    cases b with
    | nil => rfl
    | cons c' b' =>
      exfalso
      simp only [List.nil_append, List.cons_append] at h
      have : c' = ')' := (List.cons.injEq _ _ _ _ ▸ h).1.symm
      have := hb c' (List.mem_cons_self _ _)
      rw [this] at *
      simp_all
  | cons c a' iha =>
    cases b with
    | nil =>
      exfalso
      simp only [List.cons_append, List.nil_append] at h
      have : c = ')' := (List.cons.injEq _ _ _ _ ▸ h).1
      have := ha c (List.mem_cons_self _ _)
      rw [this] at *
      simp_all
    | cons c' b' =>
      simp only [List.cons_append, List.cons.injEq] at h
      obtain ⟨hc, ht⟩ := h
      have := iha (fun x hx => ha x (List.mem_cons_of_mem _ hx))
        (fun x hx => hb x (List.mem_cons_of_mem _ hx)) ht
      rw [hc, this]

/-! Facts about `_unique_name` -/
theorem fexists_iff {fs : Fs} {p : FPath} : fexists fs p = true ↔ p ∈ fs := by
  simp [fexists]

theorem fexists_false_iff {fs : Fs} {p : FPath} : fexists fs p = false ↔ p ∉ fs := by
  simp [fexists]

theorem renameCandName_inj (stem sfx : Str) {m n : Nat}
    (h : renameCandName stem sfx m = renameCandName stem sfx n) : m = n := by
  unfold renameCandName at h
  have h1 := List.append_cancel_left h
  simp only [List.cons.injEq, true_and] at h1
  exact natToChars_inj
    (digits_append_cancel (natToChars_digits m) (natToChars_digits n) h1)

theorem renameCand_inj (parent : FPath) (stem sfx : Str) {m n : Nat}
    (h : renameCand parent stem sfx m = renameCand parent stem sfx n) : m = n := by
  unfold renameCand at h
  have h1 := List.append_cancel_left h
  simp only [List.cons.injEq, and_true] at h1
  exact renameCandName_inj stem sfx h1

theorem uniqueNameAux_none_mem {fs : Fs} {parent : FPath} {stem sfx : Str}
    {fuel counter : Nat}
    (h : uniqueNameAux fs parent stem sfx fuel counter = none) :
    ∀ j < fuel, renameCand parent stem sfx (counter + j) ∈ fs := by
  induction fuel generalizing counter with
  | zero => intro j hj; omega
  | succ fuel ih =>
    intro j hj
    rw [uniqueNameAux] at h
    by_cases hc : fexists fs (renameCand parent stem sfx counter) = true
    · rw [if_pos hc] at h
      cases j with
      | zero => exact fexists_iff.mp hc
      | succ j =>
        have := ih h j (by omega)
        have harith : counter + 1 + j = counter + (j + 1) := by omega
        rwa [harith] at this
    · rw [if_neg hc] at h
      exact absurd h (by simp)

theorem uniqueNameAux_isSome (fs : Fs) (parent : FPath) (stem sfx : Str)
    {fuel : Nat} (counter : Nat) (h : fs.length < fuel) :
    (uniqueNameAux fs parent stem sfx fuel counter).isSome = true := by
  cases hopt : uniqueNameAux fs parent stem sfx fuel counter with
  | some c => rfl
  | none =>
    exfalso
    have hmem := uniqueNameAux_none_mem hopt
    have hsub : ((List.range fuel).map
        (fun j => renameCand parent stem sfx (counter + j))) ⊆ fs := by
      intro p hp
      simp only [List.mem_map, List.mem_range] at hp
      obtain ⟨j, hj, rfl⟩ := hp
      exact hmem j hj
    have hnd : ((List.range fuel).map
        (fun j => renameCand parent stem sfx (counter + j))).Nodup := by
      refine (List.nodup_range _).map_on ?_
      intro a _ b _ hab
      have := renameCand_inj parent stem sfx hab
      omega
    have := (List.subperm_of_subset hnd hsub).length_le
    simp only [List.length_map, List.length_range] at this
    omega

theorem uniqueNameAux_some_spec {fs : Fs} {parent : FPath} {stem sfx : Str}
    {fuel counter : Nat} {c : FPath}
    (h : uniqueNameAux fs parent stem sfx fuel counter = some c) :
    ∃ k, counter ≤ k ∧ c = renameCand parent stem sfx k ∧
      fexists fs (renameCand parent stem sfx k) = false ∧
      ∀ j, counter ≤ j → j < k → fexists fs (renameCand parent stem sfx j) = true := by
  induction fuel generalizing counter with
  | zero => simp [uniqueNameAux] at h
  | succ fuel ih =>
    rw [uniqueNameAux] at h
    by_cases hc : fexists fs (renameCand parent stem sfx counter) = true
    · rw [if_pos hc] at h
      obtain ⟨k, hk1, hk2, hk3, hk4⟩ := ih h
      refine ⟨k, by omega, hk2, hk3, ?_⟩
      intro j hj1 hj2
      rcases Nat.eq_or_lt_of_le hj1 with rfl | hlt
      · exact hc
      · exact hk4 j hlt hj2
    · rw [if_neg hc] at h
      have hcc := Option.some.inj h
      refine ⟨counter, le_refl _, hcc.symm, ?_, fun j hj1 hj2 => by omega⟩
      cases hb : fexists fs (renameCand parent stem sfx counter)
      · rfl
      · exact absurd hb hc

/-- The `_unique_name` returns the first unused counter-suffixed candidate. -/
theorem unique_name_spec (fs : Fs) (p : FPath) :
    ∃ k, 1 ≤ k ∧
      _unique_name fs p =
        renameCand p.dropLast (pathStem (p.getLastD [])) (pathSuffix (p.getLastD [])) k ∧
      fexists fs (_unique_name fs p) = false ∧
      ∀ j, 1 ≤ j → j < k →
        fexists fs
          (renameCand p.dropLast (pathStem (p.getLastD [])) (pathSuffix (p.getLastD [])) j)
          = true := by
  have hs := uniqueNameAux_isSome fs p.dropLast (pathStem (p.getLastD []))
    (pathSuffix (p.getLastD [])) 1 (Nat.lt_succ_self _)
  obtain ⟨c, hc⟩ := Option.isSome_iff_exists.mp hs
  obtain ⟨k, hk1, hk2, hk3, hk4⟩ := uniqueNameAux_some_spec hc
  have hun : _unique_name fs p = c := by
    rw [_unique_name]
    rw [hc]
    rfl
  refine ⟨k, hk1, ?_, ?_, hk4⟩
  · rw [hun, hk2]
  · rw [hun, hk2]
    exact hk3

theorem unique_name_not_mem (fs : Fs) (p : FPath) : _unique_name fs p ∉ fs := by
  obtain ⟨k, _, _, h3, _⟩ := unique_name_spec fs p
  exact fexists_false_iff.mp h3

/-! Fold bookkeeping for `move_files` and `undo_last` -/
theorem moveStep_acc (oc : Str) (fs : Fs) (res : MoveResult) (batch : List MoveRecord)
    (pr : FPath × FPath) :
    moveStep oc (fs, res, batch) pr =
      ((moveStep oc (fs, ⟨[], []⟩, []) pr).1,
       ⟨res.success ++ (moveStep oc (fs, ⟨[], []⟩, []) pr).2.1.success,
        res.skipped ++ (moveStep oc (fs, ⟨[], []⟩, []) pr).2.1.skipped⟩,
       batch ++ (moveStep oc (fs, ⟨[], []⟩, []) pr).2.2) := by
  obtain ⟨src, dd⟩ := pr
  simp only [moveStep]
  split
  · simp
  · split
    · split
      · simp
      · simp
    · simp

theorem moveStep_empty_batch_eq_success (oc : Str) (fs : Fs) (pr : FPath × FPath) :
    (moveStep oc (fs, ⟨[], []⟩, []) pr).2.2 =
      (moveStep oc (fs, ⟨[], []⟩, []) pr).2.1.success := by
  obtain ⟨src, dd⟩ := pr
  simp only [moveStep]
  split
  · simp
  · split
    · split
      · simp
      · simp
    · simp

theorem moveFold_acc (oc : Str) (files : List (FPath × FPath)) :
    ∀ (fs : Fs) (res : MoveResult) (batch : List MoveRecord),
    files.foldl (moveStep oc) (fs, res, batch) =
      ((files.foldl (moveStep oc) (fs, ⟨[], []⟩, [])).1,
       ⟨res.success ++ (files.foldl (moveStep oc) (fs, ⟨[], []⟩, [])).2.1.success,
        res.skipped ++ (files.foldl (moveStep oc) (fs, ⟨[], []⟩, [])).2.1.skipped⟩,
       batch ++ (files.foldl (moveStep oc) (fs, ⟨[], []⟩, [])).2.2) := by
  induction files with
  | nil => intro fs res batch; simp
  | cons pr rest ih =>
    intro fs res batch
    rcases hS : moveStep oc (fs, ⟨[], []⟩, []) pr with ⟨fs1, r1, b1⟩
    rw [List.foldl_cons, List.foldl_cons,
      moveStep_acc oc fs res batch pr, hS]
    rw [ih fs1 ⟨res.success ++ r1.success, res.skipped ++ r1.skipped⟩ (batch ++ b1)]
    rw [ih fs1 r1 b1]
    simp [List.append_assoc]

/-- The per-call batch list accumulated by `move_files` is exactly the
result's success list: both are appended to together, record by record. -/
theorem moveFold_batch_eq_success (oc : Str) (files : List (FPath × FPath)) :
    ∀ fs : Fs,
    (files.foldl (moveStep oc) (fs, ⟨[], []⟩, [])).2.2 =
      (files.foldl (moveStep oc) (fs, ⟨[], []⟩, [])).2.1.success := by
  induction files with
  | nil => intro fs; simp
  | cons pr rest ih =>
    intro fs
    rcases hS : moveStep oc (fs, ⟨[], []⟩, []) pr with ⟨fs1, r1, b1⟩
    have hb1 : b1 = r1.success := by
      have := moveStep_empty_batch_eq_success oc fs pr
      rw [hS] at this
      exact this
    rw [List.foldl_cons, hS]
    rw [moveFold_acc oc rest fs1 r1 b1]
    rw [ih fs1, hb1]

theorem undoStep_acc (fs : Fs) (acc : List MoveRecord) (r : MoveRecord) :
    undoStep (fs, acc) r = ((undoStep (fs, []) r).1, acc ++ (undoStep (fs, []) r).2) := by
  by_cases h : fexists fs r.destination = true
  · simp [undoStep, h]
  · simp [undoStep, h]

theorem undoFold_acc (batch : List MoveRecord) :
    ∀ (fs : Fs) (acc : List MoveRecord),
    batch.foldl undoStep (fs, acc) =
      ((batch.foldl undoStep (fs, [])).1, acc ++ (batch.foldl undoStep (fs, [])).2) := by
  induction batch with
  | nil => intro fs acc; simp
  | cons r rest ih =>
    intro fs acc
    rcases hS : undoStep (fs, []) r with ⟨fs1, u1⟩
    rw [List.foldl_cons, List.foldl_cons, undoStep_acc fs acc r, hS]
    rw [ih fs1 (acc ++ u1)]
    rw [ih fs1 u1]
    simp [List.append_assoc]

/-- The `undo_last` only ever reverses records drawn (in order) from the batch it
popped. -/
theorem undoFold_undone_sublist (batch : List MoveRecord) :
    ∀ fs : Fs, ((batch.foldl undoStep (fs, [])).2).Sublist batch := by
  induction batch with
  | nil => intro fs; simp
  | cons r rest ih =>
    intro fs
    rw [List.foldl_cons]
    by_cases h : fexists fs r.destination = true
    · have hstep : undoStep (fs, []) r = (fsMove fs r.destination r.original, [r]) := by
        simp [undoStep, h]
      rw [hstep, undoFold_acc rest (fsMove fs r.destination r.original) [r]]
      exact List.Sublist.cons₂ r (ih _)
    · have hstep : undoStep (fs, []) r = (fs, []) := by simp [undoStep, h]
      rw [hstep]
      exact List.Sublist.cons r (ih fs)

/-! The move phase under the `rename` policy -/
theorem nodup_insert_of_nodup {α : Type} [BEq α] [LawfulBEq α] (a : α)
    {l : List α} (h : l.Nodup) : (List.insert a l).Nodup := by
  by_cases hc : l.contains a = true
  · rw [List.insert_of_mem (by simpa using hc)]
    exact h
  · rw [List.insert_of_not_mem (by simpa using hc)]
    exact List.nodup_cons.mpr ⟨by simpa using hc, h⟩

theorem moveStep_missing_src (oc : Str) (fs : Fs) (src dd : FPath)
    (h1 : fexists fs src = false) :
    moveStep oc (fs, ⟨[], []⟩, []) (src, dd) =
      (fs, ⟨[], [(src, "File no longer exists".data)]⟩, []) := by
  simp only [moveStep, h1]
  simp

/-- With `on_conflict = "rename"` and an existing source, one step always
moves `src` to a destination that did not previously exist. -/
theorem moveStep_rename_src_mem (fs : Fs) (src dd : FPath)
    (h1 : fexists fs src = true) :
    ∃ dest : FPath, dest ∉ fs ∧
      moveStep "rename".data (fs, ⟨[], []⟩, []) (src, dd) =
        (List.insert dest (fs.erase src), ⟨[⟨src, dest⟩], []⟩, [⟨src, dest⟩]) := by
  by_cases h2 : fexists fs (dd ++ [src.getLastD []]) = true
  · refine ⟨_unique_name fs (dd ++ [src.getLastD []]),
      unique_name_not_mem fs (dd ++ [src.getLastD []]), ?_⟩
    simp only [moveStep, h1, h2]
    simp [fsMove]
  · refine ⟨dd ++ [src.getLastD []], by simpa [fexists] using h2, ?_⟩
    simp only [moveStep, h1, h2]
    simp [fsMove]

/-- Structural facts about a whole `rename`-policy batch, assuming no
record's original path collides with any record's destination path:
the final filesystem is the initial one with the originals removed and the
destinations added, the originals and destinations are each duplicate-free,
every destination is fresh and every original was initially present. -/
theorem moveFold_rename_facts (files : List (FPath × FPath)) :
    ∀ fs : Fs, fs.Nodup →
    (∀ r ∈ (files.foldl (moveStep "rename".data) (fs, ⟨[], []⟩, [])).2.2,
     ∀ r' ∈ (files.foldl (moveStep "rename".data) (fs, ⟨[], []⟩, [])).2.2,
       r.original ≠ r'.destination) →
    ((files.foldl (moveStep "rename".data) (fs, ⟨[], []⟩, [])).1.Nodup ∧
     (∀ p : FPath, p ∈ (files.foldl (moveStep "rename".data) (fs, ⟨[], []⟩, [])).1 ↔
       ((p ∈ fs ∧
           p ∉ ((files.foldl (moveStep "rename".data) (fs, ⟨[], []⟩, [])).2.2.map
             (fun r => r.original))) ∨
        p ∈ ((files.foldl (moveStep "rename".data) (fs, ⟨[], []⟩, [])).2.2.map
          (fun r => r.destination)))) ∧
     ((files.foldl (moveStep "rename".data) (fs, ⟨[], []⟩, [])).2.2.map
        (fun r => r.original)).Nodup ∧
     ((files.foldl (moveStep "rename".data) (fs, ⟨[], []⟩, [])).2.2.map
        (fun r => r.destination)).Nodup ∧
     (∀ d ∈ ((files.foldl (moveStep "rename".data) (fs, ⟨[], []⟩, [])).2.2.map
        (fun r => r.destination)), d ∉ fs) ∧
     (∀ o ∈ ((files.foldl (moveStep "rename".data) (fs, ⟨[], []⟩, [])).2.2.map
        (fun r => r.original)), o ∈ fs)) := by
  induction files with
  | nil =>
    intro fs hnd _
    refine ⟨hnd, ?_, ?_, ?_, ?_, ?_⟩ <;> simp
  | cons pr rest ih =>
    intro fs hnd H
    obtain ⟨src, dd⟩ := pr
    by_cases h1 : fexists fs src = true
    · -- the pair is moved to a fresh destination
      obtain ⟨dest, hdfs, hstep⟩ := moveStep_rename_src_mem fs src dd h1
      have hsrcfs : src ∈ fs := fexists_iff.mp h1
      have hfold : (((src, dd) :: rest).foldl (moveStep "rename".data) (fs, ⟨[], []⟩, [])) =
          ((rest.foldl (moveStep "rename".data)
              (List.insert dest (fs.erase src), ⟨[], []⟩, [])).1,
           ⟨⟨src, dest⟩ ::
              (rest.foldl (moveStep "rename".data)
                (List.insert dest (fs.erase src), ⟨[], []⟩, [])).2.1.success,
            (rest.foldl (moveStep "rename".data)
              (List.insert dest (fs.erase src), ⟨[], []⟩, [])).2.1.skipped⟩,
           ⟨src, dest⟩ ::
             (rest.foldl (moveStep "rename".data)
               (List.insert dest (fs.erase src), ⟨[], []⟩, [])).2.2) := by
        rw [List.foldl_cons, hstep,
          moveFold_acc "rename".data rest (List.insert dest (fs.erase src))
            ⟨[⟨src, dest⟩], []⟩ [⟨src, dest⟩]]
        simp
      rw [hfold] at H ⊢
      simp only [List.mem_cons] at H
      -- disjointness facts for the head record and the tail batch
      have hsd : src ≠ dest := by
        have := H ⟨src, dest⟩ (Or.inl rfl) ⟨src, dest⟩ (Or.inl rfl)
        simpa using this
      have hsrc_nd : ∀ r' ∈ (rest.foldl (moveStep "rename".data)
          (List.insert dest (fs.erase src), ⟨[], []⟩, [])).2.2, src ≠ r'.destination := by
        intro r' hr'
        have := H ⟨src, dest⟩ (Or.inl rfl) r' (Or.inr hr')
        simpa using this
      have hdest_no : ∀ r' ∈ (rest.foldl (moveStep "rename".data)
          (List.insert dest (fs.erase src), ⟨[], []⟩, [])).2.2, r'.original ≠ dest := by
        intro r' hr'
        have := H r' (Or.inr hr') ⟨src, dest⟩ (Or.inl rfl)
        simpa using this
      have H' : ∀ r ∈ (rest.foldl (moveStep "rename".data)
          (List.insert dest (fs.erase src), ⟨[], []⟩, [])).2.2,
          ∀ r' ∈ (rest.foldl (moveStep "rename".data)
            (List.insert dest (fs.erase src), ⟨[], []⟩, [])).2.2,
          r.original ≠ r'.destination := by
        intro r hr r' hr'
        exact H r (Or.inr hr) r' (Or.inr hr')
      have hnd1 : (List.insert dest (fs.erase src)).Nodup :=
        nodup_insert_of_nodup dest (hnd.erase src)
      have hmem1 : ∀ p : FPath, p ∈ List.insert dest (fs.erase src) ↔
          (p = dest ∨ (p ∈ fs ∧ p ≠ src)) := by
        intro p
        rw [List.mem_insert_iff, hnd.mem_erase_iff]
        tauto
      obtain ⟨M1, M2, M3, M4, M5, M6⟩ := ih (List.insert dest (fs.erase src)) hnd1 H'
      refine ⟨M1, ?_, ?_, ?_, ?_, ?_⟩
      · -- membership characterisation
        intro p
        rw [M2 p]
        simp only [List.map_cons, List.mem_cons]
        constructor
        · rintro (⟨hp1, hp2⟩ | hp)
          · rcases (hmem1 p).mp hp1 with rfl | ⟨hpf, hps⟩
            · exact Or.inr (Or.inl rfl)
            · exact Or.inl ⟨hpf, by simp only [not_or]; exact ⟨hps, hp2⟩⟩
          · exact Or.inr (Or.inr hp)
        · rintro (⟨hpf, hp2⟩ | hp)
          · simp only [not_or] at hp2
            exact Or.inl ⟨(hmem1 p).mpr (Or.inr ⟨hpf, hp2.1⟩), hp2.2⟩
          · rcases hp with rfl | hp
            · refine Or.inl ⟨(hmem1 p).mpr (Or.inl rfl), ?_⟩
              intro hmem
              simp only [List.mem_map] at hmem
              obtain ⟨r', hr', hre⟩ := hmem
              exact hdest_no r' hr' hre
            · exact Or.inr hp
      · -- originals are duplicate-free
        simp only [List.map_cons, List.nodup_cons]
        refine ⟨?_, M3⟩
        intro hmem
        have := M6 src hmem
        rcases (hmem1 src).mp this with h | ⟨_, h⟩
        · exact hsd h
        · exact h rfl
      · -- destinations are duplicate-free
        simp only [List.map_cons, List.nodup_cons]
        refine ⟨?_, M4⟩
        intro hmem
        exact M5 dest hmem ((hmem1 dest).mpr (Or.inl rfl))
      · -- destinations are fresh w.r.t. the initial filesystem
        simp only [List.map_cons, List.mem_cons]
        rintro d (rfl | hd)
        · exact hdfs
        · intro hdf
          have hd1 := M5 d hd
          rw [hmem1 d] at hd1
          simp only [not_or, not_and, Decidable.not_not] at hd1
          have : d = src := hd1.2 hdf
          subst this
          simp only [List.mem_map] at hd
          obtain ⟨r', hr', hre⟩ := hd
          exact hsrc_nd r' hr' hre.symm
      · -- originals were initially present
        simp only [List.map_cons, List.mem_cons]
        rintro o (rfl | ho)
        · exact hsrcfs
        · have ho1 := M6 o ho
          rcases (hmem1 o).mp ho1 with rfl | ⟨hof, _⟩
          · exfalso
            simp only [List.mem_map] at ho
            obtain ⟨r', hr', hre⟩ := ho
            exact hdest_no r' hr' hre
          · exact hof
    · -- the source is gone: the pair is skipped, nothing changes
      have h1' : fexists fs src = false := by
        cases hb : fexists fs src
        · rfl
        · exact absurd hb h1
      have hfold : (((src, dd) :: rest).foldl (moveStep "rename".data) (fs, ⟨[], []⟩, [])) =
          ((rest.foldl (moveStep "rename".data) (fs, ⟨[], []⟩, [])).1,
           ⟨(rest.foldl (moveStep "rename".data) (fs, ⟨[], []⟩, [])).2.1.success,
            (src, "File no longer exists".data) ::
              (rest.foldl (moveStep "rename".data) (fs, ⟨[], []⟩, [])).2.1.skipped⟩,
           (rest.foldl (moveStep "rename".data) (fs, ⟨[], []⟩, [])).2.2) := by
        rw [List.foldl_cons, moveStep_missing_src "rename".data fs src dd h1',
          moveFold_acc "rename".data rest fs ⟨[], [(src, "File no longer exists".data)]⟩ []]
        simp
      rw [hfold] at H ⊢
      exact ih fs hnd H

/-! The undo phase -/
/-- Replaying a batch with `undoStep` when every destination is still present,
origins and destinations are duplicate-free and mutually disjoint, and no
origin path is occupied: every record is undone, and the filesystem ends as
the start state with destinations removed and originals restored. -/
theorem undoFold_facts (B : List MoveRecord) :
    ∀ fs : Fs, fs.Nodup →
    (B.map (fun r => r.destination)).Nodup →
    (B.map (fun r => r.original)).Nodup →
    (∀ d ∈ B.map (fun r => r.destination), d ∈ fs) →
    (∀ o ∈ B.map (fun r => r.original), o ∉ fs) →
    (∀ o ∈ B.map (fun r => r.original), ∀ d ∈ B.map (fun r => r.destination), o ≠ d) →
    ((∀ p : FPath, p ∈ (B.foldl undoStep (fs, [])).1 ↔
        ((p ∈ fs ∧ p ∉ B.map (fun r => r.destination)) ∨
          p ∈ B.map (fun r => r.original))) ∧
     (B.foldl undoStep (fs, [])).2 = B ∧
     (B.foldl undoStep (fs, [])).1.Nodup) := by
  induction B with
  | nil =>
    intro fs hnd _ _ _ _ _
    refine ⟨?_, rfl, hnd⟩
    simp
  | cons r B' ih =>
    intro fs hnd hDnd hOnd hDmem hOnot hOD
    simp only [List.map_cons, List.nodup_cons, List.mem_cons] at hDnd hOnd hDmem hOnot hOD
    have hdest : r.destination ∈ fs := hDmem r.destination (Or.inl rfl)
    have hstep : undoStep (fs, []) r =
        (List.insert r.original (fs.erase r.destination), [r]) := by
      simp [undoStep, fexists_iff.mpr hdest, fsMove]
    have hnd1 : (List.insert r.original (fs.erase r.destination)).Nodup :=
      nodup_insert_of_nodup r.original (hnd.erase r.destination)
    have hmem1 : ∀ p : FPath, p ∈ List.insert r.original (fs.erase r.destination) ↔
        (p = r.original ∨ (p ∈ fs ∧ p ≠ r.destination)) := by
      intro p
      rw [List.mem_insert_iff, hnd.mem_erase_iff]
      tauto
    -- hypotheses of the induction hypothesis at the updated filesystem
    have hD' : ∀ d ∈ B'.map (fun r => r.destination),
        d ∈ List.insert r.original (fs.erase r.destination) := by
      intro d hd
      refine (hmem1 d).mpr (Or.inr ⟨hDmem d (Or.inr hd), ?_⟩)
      intro heq
      exact hDnd.1 (heq ▸ hd)
    have hO' : ∀ o ∈ B'.map (fun r => r.original),
        o ∉ List.insert r.original (fs.erase r.destination) := by
      intro o ho hoin
      rcases (hmem1 o).mp hoin with heq | ⟨hof, _⟩
      · exact hOnd.1 (heq ▸ ho)
      · exact hOnot o (Or.inr ho) hof
    have hOD' : ∀ o ∈ B'.map (fun r => r.original),
        ∀ d ∈ B'.map (fun r => r.destination), o ≠ d := by
      intro o ho d hd
      exact hOD o (Or.inr ho) d (Or.inr hd)
    obtain ⟨U1, U2, U3⟩ := ih (List.insert r.original (fs.erase r.destination))
      hnd1 hDnd.2 hOnd.2 hD' hO' hOD'
    have hfold : ((r :: B').foldl undoStep (fs, [])) =
        ((B'.foldl undoStep
            (List.insert r.original (fs.erase r.destination), [])).1,
         r :: (B'.foldl undoStep
            (List.insert r.original (fs.erase r.destination), [])).2) := by
      rw [List.foldl_cons, hstep,
        undoFold_acc B' (List.insert r.original (fs.erase r.destination)) [r]]
      simp
    rw [hfold]
    refine ⟨?_, by rw [U2], U3⟩
    intro p
    rw [U1 p]
    simp only [List.map_cons, List.mem_cons]
    constructor
    · rintro (⟨hp1, hp2⟩ | hp)
      · rcases (hmem1 p).mp hp1 with rfl | ⟨hpf, hps⟩
        · exact Or.inr (Or.inl rfl)
        · exact Or.inl ⟨hpf, by simp only [not_or]; exact ⟨hps, hp2⟩⟩
      · exact Or.inr (Or.inr hp)
    · rintro (⟨hpf, hp2⟩ | hp)
      · simp only [not_or] at hp2
        refine Or.inl ⟨(hmem1 p).mpr (Or.inr ⟨hpf, hp2.1⟩), hp2.2⟩
      · rcases hp with heq | hp
        · subst heq
          refine Or.inl ⟨(hmem1 _).mpr (Or.inl rfl), ?_⟩
          intro hmem
          exact hOD _ (Or.inl rfl) _ (Or.inr hmem) rfl
        · exact Or.inr hp

/-! Claim C2: move and undo round trip -/
theorem move_files_eq (st : FileOpsState) (files : List (FPath × FPath)) (oc : Str) :
    move_files st files oc =
      (⟨(files.foldl (moveStep oc) (st.fs, ⟨[], []⟩, [])).1,
        if (files.foldl (moveStep oc) (st.fs, ⟨[], []⟩, [])).2.2.isEmpty
        then st.undo_stack
        else (files.foldl (moveStep oc) (st.fs, ⟨[], []⟩, [])).2.2 :: st.undo_stack⟩,
       (files.foldl (moveStep oc) (st.fs, ⟨[], []⟩, [])).2.1) := rfl

theorem undo_last_cons (fs : Fs) (batch : List MoveRecord)
    (rest : List (List MoveRecord)) :
    undo_last ⟨fs, batch :: rest⟩ =
      (⟨(batch.foldl undoStep (fs, [])).1, rest⟩, (batch.foldl undoStep (fs, [])).2) := rfl

theorem moveFold_rename_batch_ne_nil (src dd : FPath) (rest : List (FPath × FPath))
    (fs : Fs) (h1 : fexists fs src = true) :
    (((src, dd) :: rest).foldl (moveStep "rename".data) (fs, ⟨[], []⟩, [])).2.2 ≠ [] := by
  obtain ⟨dest, _, hstep⟩ := moveStep_rename_src_mem fs src dd h1
  rw [List.foldl_cons, hstep,
    moveFold_acc "rename".data rest (List.insert dest (fs.erase src))
      ⟨[⟨src, dest⟩], []⟩ [⟨src, dest⟩]]
  simp

/-- C2 (amended): moving a non-empty batch of existing files under the
`rename` conflict policy and then undoing restores the filesystem exactly —
every moved file returns to its original path and no residual file is left at
any destination — provided no successful move's destination path coincides
with another move's original path (without that proviso the forward-order
undo replay can overwrite a not-yet-undone destination; see the
counterexample).  The undo stack is restored and every successful move is
reported as undone. -/
theorem C2_rename_roundtrip (st : FileOpsState) (files : List (FPath × FPath))
    (hnd : st.fs.Nodup) (hne : files ≠ [])
    (hsrc : ∀ pr ∈ files, fexists st.fs pr.1 = true)
    (hdisj : ∀ r ∈ (move_files st files "rename".data).2.success,
             ∀ r' ∈ (move_files st files "rename".data).2.success,
             r.original ≠ r'.destination) :
    (∀ p : FPath, p ∈ (undo_last (move_files st files "rename".data).1).1.fs ↔ p ∈ st.fs) ∧
    (undo_last (move_files st files "rename".data).1).1.undo_stack = st.undo_stack ∧
    (undo_last (move_files st files "rename".data).1).2 =
      (move_files st files "rename".data).2.success := by
  cases files with
  | nil => exact absurd rfl hne
  | cons pr rest =>
    obtain ⟨src, dd⟩ := pr
    have hBsucc : (((src, dd) :: rest).foldl (moveStep "rename".data)
          (st.fs, ⟨[], []⟩, [])).2.2 =
        (((src, dd) :: rest).foldl (moveStep "rename".data)
          (st.fs, ⟨[], []⟩, [])).2.1.success :=
      moveFold_batch_eq_success "rename".data ((src, dd) :: rest) st.fs
    have hdisjB : ∀ r ∈ (((src, dd) :: rest).foldl (moveStep "rename".data)
          (st.fs, ⟨[], []⟩, [])).2.2,
        ∀ r' ∈ (((src, dd) :: rest).foldl (moveStep "rename".data)
          (st.fs, ⟨[], []⟩, [])).2.2, r.original ≠ r'.destination := by
      rw [hBsucc]
      exact hdisj
    have hBne : (((src, dd) :: rest).foldl (moveStep "rename".data)
        (st.fs, ⟨[], []⟩, [])).2.2 ≠ [] :=
      moveFold_rename_batch_ne_nil src dd rest st.fs
        (hsrc (src, dd) (List.mem_cons_self _ _))
    obtain ⟨M1, M2, M3, M4, M5, M6⟩ :=
      moveFold_rename_facts ((src, dd) :: rest) st.fs hnd hdisjB
    have hBempty : (((src, dd) :: rest).foldl (moveStep "rename".data)
        (st.fs, ⟨[], []⟩, [])).2.2.isEmpty = false := by
      cases hB : (((src, dd) :: rest).foldl (moveStep "rename".data)
          (st.fs, ⟨[], []⟩, [])).2.2
      · exact absurd hB hBne
      · rfl
    rw [move_files_eq, hBempty] at hdisj ⊢
    simp only [Bool.false_eq_true, if_false] at hdisj ⊢
    rw [undo_last_cons]
    -- now feed the undo-phase lemma from the move-phase facts
    have hDT : ∀ d ∈ ((((src, dd) :: rest).foldl (moveStep "rename".data)
          (st.fs, ⟨[], []⟩, [])).2.2.map (fun r => r.destination)),
        d ∈ (((src, dd) :: rest).foldl (moveStep "rename".data)
          (st.fs, ⟨[], []⟩, [])).1 := by
      intro d hd
      exact (M2 d).mpr (Or.inr hd)
    have hOT : ∀ o ∈ ((((src, dd) :: rest).foldl (moveStep "rename".data)
          (st.fs, ⟨[], []⟩, [])).2.2.map (fun r => r.original)),
        o ∉ (((src, dd) :: rest).foldl (moveStep "rename".data)
          (st.fs, ⟨[], []⟩, [])).1 := by
      intro o ho hoin
      rcases (M2 o).mp hoin with ⟨_, hno⟩ | hdupl
      · exact hno ho
      · simp only [List.mem_map] at ho hdupl
        obtain ⟨r, hr, hro⟩ := ho
        obtain ⟨r', hr', hrd⟩ := hdupl
        exact hdisjB r hr r' hr' (hro.trans hrd.symm)
    have hODT : ∀ o ∈ ((((src, dd) :: rest).foldl (moveStep "rename".data)
          (st.fs, ⟨[], []⟩, [])).2.2.map (fun r => r.original)),
        ∀ d ∈ ((((src, dd) :: rest).foldl (moveStep "rename".data)
          (st.fs, ⟨[], []⟩, [])).2.2.map (fun r => r.destination)), o ≠ d := by
      intro o ho d hd
      simp only [List.mem_map] at ho hd
      obtain ⟨r, hr, hro⟩ := ho
      obtain ⟨r', hr', hrd⟩ := hd
      rw [← hro, ← hrd]
      exact hdisjB r hr r' hr'
    obtain ⟨U1, U2, _⟩ := undoFold_facts
      (((src, dd) :: rest).foldl (moveStep "rename".data) (st.fs, ⟨[], []⟩, [])).2.2
      (((src, dd) :: rest).foldl (moveStep "rename".data) (st.fs, ⟨[], []⟩, [])).1
      M1 M4 M3 hDT hOT hODT
    refine ⟨?_, rfl, by rw [U2, hBsucc]⟩
    intro p
    rw [U1 p]
    constructor
    · rintro (⟨hp1, hp2⟩ | hp)
      · rcases (M2 p).mp hp1 with ⟨hpf, _⟩ | hpd
        · exact hpf
        · exact absurd hpd hp2
      · exact M6 p hp
    · intro hp
      by_cases ho : p ∈ ((((src, dd) :: rest).foldl (moveStep "rename".data)
          (st.fs, ⟨[], []⟩, [])).2.2.map (fun r => r.original))
      · exact Or.inr ho
      · refine Or.inl ⟨(M2 p).mpr (Or.inl ⟨hp, ho⟩), ?_⟩
        intro hpd
        exact M5 p hpd hp

/-- C7: when the computed destination `dest_dir / src.name` already exists,
one `move_files` iteration applies the conflict policy: `skip` moves nothing
and records one skip entry whose reason says the file already exists;
`rename` moves the source to the first unused candidate obtained by placing
`" (1)"`, `" (2)"`, … before the extension; `overwrite` deletes the existing
destination file first and then moves the source onto that very path. -/
theorem C7_conflict_policy (fs : Fs) (res : MoveResult) (batch : List MoveRecord)
    (src dest_dir : FPath)
    (h1 : fexists fs src = true)
    (h2 : fexists fs (dest_dir ++ [src.getLastD []]) = true) :
    (moveStep "skip".data (fs, res, batch) (src, dest_dir) =
      (fs, ⟨res.success,
            res.skipped ++ [(src, "File already exists at destination".data)]⟩,
       batch)) ∧
    (∃ k, 1 ≤ k ∧
      moveStep "rename".data (fs, res, batch) (src, dest_dir) =
        (fsMove fs src
           (renameCand dest_dir (pathStem (src.getLastD []))
             (pathSuffix (src.getLastD [])) k),
         ⟨res.success ++ [⟨src, renameCand dest_dir (pathStem (src.getLastD []))
             (pathSuffix (src.getLastD [])) k⟩], res.skipped⟩,
         batch ++ [⟨src, renameCand dest_dir (pathStem (src.getLastD []))
             (pathSuffix (src.getLastD [])) k⟩]) ∧
      renameCand dest_dir (pathStem (src.getLastD []))
        (pathSuffix (src.getLastD [])) k ∉ fs ∧
      (∀ j, 1 ≤ j → j < k →
        renameCand dest_dir (pathStem (src.getLastD []))
          (pathSuffix (src.getLastD [])) j ∈ fs)) ∧
    (moveStep "overwrite".data (fs, res, batch) (src, dest_dir) =
      (fsMove (fs.erase (dest_dir ++ [src.getLastD []])) src
         (dest_dir ++ [src.getLastD []]),
       ⟨res.success ++ [⟨src, dest_dir ++ [src.getLastD []]⟩], res.skipped⟩,
       batch ++ [⟨src, dest_dir ++ [src.getLastD []]⟩])) := by
  obtain ⟨k, hk1, hk2, hk3, hk4⟩ := unique_name_spec fs (dest_dir ++ [src.getLastD []])
  rw [List.dropLast_concat, List.getLastD_concat] at hk2 hk4
  simp only [List.getLastD_eq_getLast?] at h2 hk2 hk3 hk4 ⊢
  refine ⟨?_, ⟨k, hk1, ?_, ?_, ?_⟩, ?_⟩
  · simp [moveStep, h1, h2]
  · rw [← hk2]
    simp [moveStep, h1, h2]
  · rw [← hk2]
    exact fexists_false_iff.mp hk3
  · intro j hj1 hj2
    exact fexists_iff.mp (hk4 j hj1 hj2)
  · simp [moveStep, h1, h2]

/-- Witness for C7: destination `b/a` already occupied by an existing file. -/
theorem C7_conflict_policy_witness :
    (fexists [[['a']], [['b'], ['a']]] [['a']] = true ∧
     fexists [[['a']], [['b'], ['a']]] ([['b']] ++ [List.getLastD [['a']] []]) = true) ∧
    moveStep "skip".data ([[['a']], [['b'], ['a']]], ⟨[], []⟩, []) ([['a']], [['b']]) =
      ([[['a']], [['b'], ['a']]],
       ⟨[], [] ++ [([['a']], "File already exists at destination".data)]⟩, []) :=
  ⟨⟨by decide, by decide⟩,
    (C7_conflict_policy [[['a']], [['b'], ['a']]] ⟨[], []⟩ [] [['a']] [['b']]
      (by decide) (by decide)).1⟩

/-- C8: the undo stack grows only by one batch per `move_files` call with at
least one success (a call with zero successes pushes nothing), and
`undo_last` removes exactly one full batch — never part of one — while an
empty stack makes `undo_last` return an empty list and leave the state
untouched. -/
theorem C8_undo_stack_invariant (st : FileOpsState) (files : List (FPath × FPath))
    (oc : Str) :
    ((move_files st files oc).2.success = [] →
      (move_files st files oc).1.undo_stack = st.undo_stack) ∧
    ((move_files st files oc).2.success ≠ [] →
      ∃ b, b ≠ [] ∧ (move_files st files oc).1.undo_stack = b :: st.undo_stack) ∧
    (st.undo_stack = [] → undo_last st = (st, [])) ∧
    (∀ b bs, st.undo_stack = b :: bs → (undo_last st).1.undo_stack = bs) := by
  have hB := moveFold_batch_eq_success oc files st.fs
  refine ⟨?_, ?_, ?_, ?_⟩
  · intro hsucc
    rw [move_files_eq] at hsucc ⊢
    simp only at hsucc
    rw [hB, hsucc]
    rfl
  · intro hsucc
    rw [move_files_eq] at hsucc ⊢
    simp only at hsucc
    refine ⟨(files.foldl (moveStep oc) (st.fs, ⟨[], []⟩, [])).2.2, ?_, ?_⟩
    · rw [hB]
      exact hsucc
    · have : (files.foldl (moveStep oc) (st.fs, ⟨[], []⟩, [])).2.2.isEmpty = false := by
        cases hE : (files.foldl (moveStep oc) (st.fs, ⟨[], []⟩, [])).2.2
        · rw [hB] at hE
          exact absurd hE hsucc
        · rfl
      rw [this]
      rfl
  · intro hempty
    obtain ⟨fs, stack⟩ := st
    simp only at hempty
    subst hempty
    rfl
  · intro b bs hstack
    obtain ⟨fs, stack⟩ := st
    simp only at hstack
    subst hstack
    rw [undo_last_cons]

/-- Witness for C8: an empty call pushes nothing; an empty stack undoes to
an empty record list. -/
theorem C8_undo_stack_invariant_witness :
    ((move_files ⟨[[['w']]], []⟩ [] "skip".data).2.success = []) ∧
    ((move_files ⟨[[['w']]], []⟩ [] "skip".data).1.undo_stack =
      (⟨[[['w']]], []⟩ : FileOpsState).undo_stack) ∧
    undo_last ⟨[[['w']]], []⟩ = (⟨[[['w']]], []⟩, []) :=
  ⟨by decide,
   (C8_undo_stack_invariant ⟨[[['w']]], []⟩ [] "skip".data).1 (by decide),
   (C8_undo_stack_invariant ⟨[[['w']]], []⟩ [] "skip".data).2.2.1 (by decide)⟩

/-- C10: the batch pushed by `move_files` (when non-empty) is exactly the
returned success list, in the same order, so a following `undo_last` replays
precisely the moves reported successful — its undone records are drawn, in
order, from that success list and from nothing else. -/
theorem C10_pushed_batch_is_success (st : FileOpsState) (files : List (FPath × FPath))
    (oc : Str) :
    ((move_files st files oc).2.success = [] →
      (move_files st files oc).1.undo_stack = st.undo_stack) ∧
    ((move_files st files oc).2.success ≠ [] →
      (move_files st files oc).1.undo_stack =
        (move_files st files oc).2.success :: st.undo_stack) ∧
    ((move_files st files oc).2.success ≠ [] →
      ((undo_last (move_files st files oc).1).2).Sublist
        (move_files st files oc).2.success) := by
  have hB := moveFold_batch_eq_success oc files st.fs
  have hempty : (move_files st files oc).2.success ≠ [] →
      (files.foldl (moveStep oc) (st.fs, ⟨[], []⟩, [])).2.2.isEmpty = false := by
    intro hsucc
    rw [move_files_eq] at hsucc
    simp only at hsucc
    cases hE : (files.foldl (moveStep oc) (st.fs, ⟨[], []⟩, [])).2.2
    · rw [hB] at hE
      exact absurd hE hsucc
    · rfl
  refine ⟨?_, ?_, ?_⟩
  · intro hsucc
    rw [move_files_eq] at hsucc ⊢
    simp only at hsucc
    rw [hB, hsucc]
    rfl
  · intro hsucc
    rw [move_files_eq]
    simp only
    rw [hempty hsucc]
    simp only [Bool.false_eq_true, if_false]
    rw [hB]
  · intro hsucc
    rw [move_files_eq]
    simp only
    rw [hempty hsucc]
    simp only [Bool.false_eq_true, if_false]
    rw [undo_last_cons]
    simp only
    rw [hB]
    exact undoFold_undone_sublist _ _

/-- Witness for C10: one successful move pushes exactly the success list. -/
theorem C10_pushed_batch_is_success_witness :
    ((move_files ⟨[[['m']]], []⟩ [([['m']], [['n']])] "rename".data).2.success ≠ []) ∧
    ((move_files ⟨[[['m']]], []⟩ [([['m']], [['n']])] "rename".data).1.undo_stack =
      (move_files ⟨[[['m']]], []⟩ [([['m']], [['n']])] "rename".data).2.success ::
        (⟨[[['m']]], []⟩ : FileOpsState).undo_stack) :=
  ⟨by decide,
   (C10_pushed_batch_is_success ⟨[[['m']]], []⟩ [([['m']], [['n']])]
     "rename".data).2.1 (by decide)⟩

/-- C2 counterexample: both sources exist and the conflict policy is
`rename`, yet after `move_files` followed by `undo_last` the file that
originally lived at `d/f` is gone (its path is no longer occupied), because
the second move reused `d/f` as a destination and the forward-order undo
replay overwrote it.  No destination was touched externally. -/
theorem C2_counterexample :
    (∀ pr ∈ cexFilesC2, fexists cexStateC2.fs pr.1 = true) ∧
    [['d'], ['f']] ∈ cexStateC2.fs ∧
    [['d'], ['f']] ∉ (undo_last (move_files cexStateC2 cexFilesC2 "rename".data).1).1.fs := by
  decide

/-- Witness instantiating the amended C2 round trip on a one-element batch. -/
theorem C2_rename_roundtrip_witness :
    ((⟨[[['s'], ['f']]], []⟩ : FileOpsState).fs.Nodup ∧
     (∀ pr ∈ [(([['s'], ['f']], [['t']]) : FPath × FPath)],
        fexists (⟨[[['s'], ['f']]], []⟩ : FileOpsState).fs pr.1 = true)) ∧
    (undo_last (move_files ⟨[[['s'], ['f']]], []⟩
        [([['s'], ['f']], [['t']])] "rename".data).1).2 =
      (move_files ⟨[[['s'], ['f']]], []⟩
        [([['s'], ['f']], [['t']])] "rename".data).2.success :=
  ⟨⟨by decide, by decide⟩,
    (C2_rename_roundtrip ⟨[[['s'], ['f']]], []⟩ [([['s'], ['f']], [['t']])]
      (by decide) (by decide) (by decide) (by decide)).2.2⟩

theorem _normalise_mem (text : Str) : _normalise text ∈ VALID_CATEGORIES := by
  unfold _normalise
  by_cases h : stripWs (rstripSet ".".data (stripWs text)) ∈ VALID_CATEGORIES
  · rw [if_pos h]
    exact h
  · rw [if_neg h]
    dsimp only
    cases hf : VALID_CATEGORIES.find? (fun cat =>
        (strLower (stripWs (rstripSet ".".data (stripWs text))) == strLower cat) ||
        (strLower (stripWs (rstripSet ".".data (stripWs text))) ==
          rstripSet "s".data (strLower cat))) with
    | none => decide
    | some cat => exact List.mem_of_find?_eq_some hf

theorem parseLine_mem (line : Str) : parseLine line ∈ VALID_CATEGORIES := by
  unfold parseLine
  cases h : line.findIdx? (fun c => ¬ c.isDigit) with
  | none => simp [VALID_CATEGORIES]
  | some i => exact _normalise_mem _

/-- C6: for every input list, credential and API outcome, `classify_batch`
returns a list of exactly the input's length, positionally aligned with it,
every entry drawn from {Lectures, Tutorials, Assignments, Other}; and with
an absent credential or a failed call every entry is `Other`. -/
theorem C6_classify_batch_total (filenames : List Str) (api_key : Str)
    (response : Except Unit Str) :
    (classify_batch filenames api_key response).length = filenames.length ∧
    (∀ c ∈ classify_batch filenames api_key response, c ∈ VALID_CATEGORIES) ∧
    ((api_key = [] ∨ (∃ e, response = .error e)) →
      classify_batch filenames api_key response =
        List.replicate filenames.length "Other".data) := by
  refine ⟨?_, ?_, ?_⟩
  · unfold classify_batch
    by_cases h : (api_key.isEmpty || filenames.isEmpty) = true
    · rw [if_pos h]
      exact List.length_replicate _ _
    · rw [if_neg h]
      cases response with
      | error e => exact List.length_replicate _ _
      | ok answer =>
        simp only [List.length_take, List.length_append, List.length_replicate]
        omega
  · intro c hc
    unfold classify_batch at hc
    by_cases h : (api_key.isEmpty || filenames.isEmpty) = true
    · rw [if_pos h] at hc
      rw [List.eq_of_mem_replicate hc]
      decide
    · rw [if_neg h] at hc
      cases response with
      | error e =>
        rw [List.eq_of_mem_replicate hc]
        decide
      | ok answer =>
        simp only at hc
        have hc' := List.mem_of_mem_take hc
        rcases List.mem_append.mp hc' with hr | hr
        · unfold parseAnswer at hr
          obtain ⟨l, _, rfl⟩ := List.mem_map.mp hr
          exact parseLine_mem l
        · rw [List.eq_of_mem_replicate hr]
          decide
  · rintro (rfl | ⟨e, rfl⟩)
    · unfold classify_batch
      rw [if_pos (by simp)]
    · unfold classify_batch
      by_cases h : (api_key.isEmpty || filenames.isEmpty) = true
      · rw [if_pos h]
      · rw [if_neg h]

/-- Witness for C6: a missing credential degrades a one-file batch to
`Other`. -/
theorem C6_classify_batch_total_witness :
    classify_batch ["notes.pdf".data] [] (.ok "garbage".data) =
      List.replicate 1 "Other".data ∧
    (classify_batch ["notes.pdf".data] [] (.ok "garbage".data)).length = 1 :=
  ⟨(C6_classify_batch_total ["notes.pdf".data] [] (.ok "garbage".data)).2.2 (Or.inl rfl),
   (C6_classify_batch_total ["notes.pdf".data] [] (.ok "garbage".data)).1⟩

/-! Claim C5: scan failure semantics -/
/-- C5: a missing history database or an empty platform list yields two
empty lists (no snapshot is even created); a snapshot copy failure
propagates as the scan's only hard error; and whenever the snapshot file
was created, the last filesystem event is its removal — on the failing exit
path as much as on the successful one. -/
theorem C5_scan_failure_semantics (env : ScanEnv) (config : Config) :
    (env.chrome_db_exists = false →
      scan_downloads env config = (.ok ([], []), [])) ∧
    (config.platforms = [] → (scan_downloads env config).1 = .ok ([], [])) ∧
    (env.chrome_db_exists = true → config.platforms ≠ [] → env.copy_ok = false →
      (scan_downloads env config).1 = .error .copyFailed) ∧
    (.tmpCreated ∈ (scan_downloads env config).2 →
      (scan_downloads env config).2.getLast? = some .tmpUnlinked) := by
  refine ⟨?_, ?_, ?_, ?_⟩
  · intro h
    simp [scan_downloads, h]
  · intro h
    by_cases hdb : env.chrome_db_exists = true
    · simp [scan_downloads, hdb, h]
    · simp only [Bool.not_eq_true] at hdb
      simp [scan_downloads, hdb]
  · intro hdb hpl hcopy
    have hpl' : config.platforms.isEmpty = false := by
      cases hp : config.platforms
      · exact absurd hp hpl
      · rfl
    simp [scan_downloads, hdb, hpl', hcopy]
  · intro hmem
    by_cases hdb : env.chrome_db_exists = true
    · by_cases hpl : config.platforms.isEmpty = true
      · exfalso
        simp [scan_downloads, hdb, hpl] at hmem
      · by_cases hcopy : env.copy_ok = true
        · simp only [Bool.not_eq_true] at hpl
          simp [scan_downloads, hdb, hpl, hcopy]
        · simp only [Bool.not_eq_true] at hpl hcopy
          simp [scan_downloads, hdb, hpl, hcopy]
    · exfalso
      simp only [Bool.not_eq_true] at hdb
      simp [scan_downloads, hdb] at hmem

/-- Witness for C5: the missing-database and copy-failure exits. -/
theorem C5_scan_failure_semantics_witness :
    scan_downloads scanEnvNoDb scanCfgOnePlatform = (.ok ([], []), []) ∧
    (scan_downloads scanEnvCopyFail scanCfgOnePlatform).1 = .error .copyFailed :=
  ⟨(C5_scan_failure_semantics scanEnvNoDb scanCfgOnePlatform).1 rfl,
   (C5_scan_failure_semantics scanEnvCopyFail scanCfgOnePlatform).2.2.1 rfl
     (by simp [scanCfgOnePlatform]) rfl⟩

/-! Claim C9: platform detection -/
theorem insertUrl_keys (acc : List (Str × List Str × Nat)) (d u : Str) :
    (insertUrl acc d u).map (fun e => e.1) =
      if d ∈ acc.map (fun e => e.1) then acc.map (fun e => e.1)
      else acc.map (fun e => e.1) ++ [d] := by
  induction acc with
  | nil => simp [insertUrl]
  | cons hd t ih =>
    obtain ⟨d0, us, n⟩ := hd
    by_cases hdd : d0 = d
    · subst hdd
      simp [insertUrl]
    · have hbe : (d0 == d) = false := beq_false_of_ne hdd
      simp only [insertUrl, hbe]
      simp only [Bool.false_eq_true, if_false, List.map_cons, ih, List.mem_cons]
      by_cases hmem : d ∈ t.map (fun e => e.1)
      · simp [hmem, Ne.symm hdd]
      · simp [hmem, Ne.symm hdd]

theorem insertUrl_keys_nodup {acc : List (Str × List Str × Nat)} (d u : Str)
    (h : (acc.map (fun e => e.1)).Nodup) :
    ((insertUrl acc d u).map (fun e => e.1)).Nodup := by
  rw [insertUrl_keys]
  by_cases hmem : d ∈ acc.map (fun e => e.1)
  · rw [if_pos hmem]
    exact h
  · rw [if_neg hmem]
    simp only [List.nodup_append, List.nodup_cons]
    exact ⟨h, by simp, by simpa using hmem⟩

theorem foldl_preserve {α β : Type} {P : β → Prop} {f : β → α → β}
    (h : ∀ b a, P b → P (f b a)) :
    ∀ (l : List α) (b : β), P b → P (l.foldl f b) := by
  intro l
  induction l with
  | nil => intro b hb; exact hb
  | cons a t ih => intro b hb; exact ih (f b a) (h b a hb)

theorem collectDomains_keys_nodup (rows : List HRow) :
    ((collectDomains rows).map (fun e => e.1)).Nodup := by
  unfold collectDomains
  refine foldl_preserve
    (P := fun (acc : List (Str × List Str × Nat)) => ((acc.map (fun e => e.1)).Nodup))
    ?_ _ [] List.nodup_nil
  intro acc row hacc
  refine foldl_preserve
    (P := fun (acc : List (Str × List Str × Nat)) => ((acc.map (fun e => e.1)).Nodup))
    ?_ _ acc hacc
  intro acc' url hacc'
  by_cases hu : url.isEmpty = true
  · simpa [hu] using hacc'
  · simp only [hu, Bool.false_eq_true, if_false]
    by_cases hn : (urlNetloc url).isEmpty = true
    · simpa [hn] using hacc'
    · simp only [hn, Bool.false_eq_true, if_false]
      exact insertUrl_keys_nodup _ url hacc'

theorem detect_results_domains_sublist (adapters : List Adapter)
    (ds : List (Str × List Str × Nat)) :
    ((ds.filterMap (fun e =>
        match adapters.find? (fun a => _domain_matches e.1 e.2.1 a) with
        | some a => some (⟨e.1, strLower a.name, a, e.2.2⟩ : DetectedPlatform)
        | none => none)).map (fun p => p.domain)).Sublist
      (ds.map (fun e => e.1)) := by
  induction ds with
  | nil => simp
  | cons e t ih =>
    cases hf : adapters.find? (fun a => _domain_matches e.1 e.2.1 a) with
    | none =>
      simp only [List.filterMap_cons, hf, List.map_cons]
      exact ih.cons e.1
    | some a =>
      simp only [List.filterMap_cons, hf, List.map_cons]
      exact ih.cons₂ e.1

/-- C9: platform detection assigns each observed domain at most once — to
the first adapter, in the fixed Canvas → Moodle → Blackboard → Insendi
order, with a fingerprint occurring in the domain or any of its URLs — and
the result is ordered by non-increasing download count, so a domain with
strictly more downloads precedes one with fewer. -/
theorem C9_detect_from_history (h : AdapterOracles) (rows : List HRow) :
    ((detect_from_history (ALL_ADAPTERS h) rows).map (fun p => p.domain)).Nodup ∧
    (∀ dp ∈ detect_from_history (ALL_ADAPTERS h) rows,
      ∃ e ∈ collectDomains rows,
        e.1 = dp.domain ∧ e.2.2 = dp.download_count ∧
        (ALL_ADAPTERS h).find? (fun a => _domain_matches e.1 e.2.1 a) =
          some dp.adapter ∧
        dp.platform_type = strLower dp.adapter.name) ∧
    List.Pairwise (fun p q => q.download_count ≤ p.download_count)
      (detect_from_history (ALL_ADAPTERS h) rows) := by
  have hperm := List.mergeSort_perm
    ((collectDomains rows).filterMap (fun e =>
      match (ALL_ADAPTERS h).find? (fun a => _domain_matches e.1 e.2.1 a) with
      | some a => some (⟨e.1, strLower a.name, a, e.2.2⟩ : DetectedPlatform)
      | none => none))
    (fun p q => decide (q.download_count ≤ p.download_count))
  refine ⟨?_, ?_, ?_⟩
  · have hnd := (detect_results_domains_sublist (ALL_ADAPTERS h)
      (collectDomains rows)).nodup (collectDomains_keys_nodup rows)
    exact ((hperm.map (fun p => p.domain)).nodup_iff).mpr hnd
  · intro dp hdp
    have hdp' := hperm.mem_iff.mp hdp
    obtain ⟨e, he, hfe⟩ := List.mem_filterMap.mp hdp'
    cases hf : (ALL_ADAPTERS h).find? (fun a => _domain_matches e.1 e.2.1 a) with
    | none =>
      rw [hf] at hfe
      exact absurd hfe (by simp)
    | some a =>
      rw [hf] at hfe
      simp only [Option.some.injEq] at hfe
      refine ⟨e, he, ?_, ?_, ?_, ?_⟩ <;> rw [← hfe]
      exact hf
  · have hsorted := @List.sorted_mergeSort DetectedPlatform
      (fun p q => decide (q.download_count ≤ p.download_count))
      (fun a b c hab hbc => by
        simp only [decide_eq_true_eq] at hab hbc ⊢
        omega)
      (fun a b => by
        simp only [Bool.or_eq_true, decide_eq_true_eq]
        omega)
      ((collectDomains rows).filterMap (fun e =>
        match (ALL_ADAPTERS h).find? (fun a => _domain_matches e.1 e.2.1 a) with
        | some a => some (⟨e.1, strLower a.name, a, e.2.2⟩ : DetectedPlatform)
        | none => none))
    refine hsorted.imp ?_
    intro a b hab
    simpa using hab

/-! Claim C1: adapter resolution -/
/-- Decomposition: `_resolve_adapter` is the spec's primary search followed by the
netloc-containment fallback. -/
theorem resolve_adapter_decomposition (ga : Str → Option Adapter) (url : Str)
    (cfgs : List PlatformConfig) :
    _resolve_adapter ga url cfgs =
      match specResolveAdapter ga url cfgs with
      | some r => some r
      | none => fallbackResolveAdapter ga url cfgs := rfl

/-- The `classifyRow` always emits exactly one `ClassifiedFile`, carrying the
row's path and tab URL and the matched adapter's name. -/
theorem classifyRow_results (config : Config) (st : QueryState)
    (row : DownloadRow) (adapter : Adapter) (domain : Str) :
    ∃ cf, (classifyRow config st row adapter domain).results = st.results ++ [cf] ∧
      cf.platform = adapter.name ∧ cf.path = row.target_path ∧
      cf.download_url = row.tab_url ∧
      cf.course_id = pyOr (resolveCourseId adapter row domain) "unknown".data := by
  unfold classifyRow
  dsimp only
  by_cases hA : (¬ (resolveCourseId adapter row domain).isEmpty = true ∧
      ((config.courses.lookup (resolveCourseId adapter row domain)).isSome = true))
  · simp only [if_pos hA]
    exact ⟨_, rfl, rfl, rfl, rfl, rfl⟩
  · simp only [if_neg hA]
    by_cases hB : ¬ (resolveCourseId adapter row domain).isEmpty = true
    · simp only [if_pos hB]
      by_cases hC : ((st.discovered.lookup (resolveCourseId adapter row domain)).isSome
          = true)
      · simp only [if_pos hC]
        exact ⟨_, rfl, rfl, rfl, rfl, rfl⟩
      · simp only [if_neg hC]
        exact ⟨_, rfl, rfl, rfl, rfl, rfl⟩
    · simp only [if_neg hB]
      exact ⟨_, rfl, rfl, rfl, rfl, rfl⟩

/-- C1 (amended): a record is attributed by `_resolve_adapter`, which runs
the spec's primary search (first configured platform whose domain occurs in
the URL and whose adapter confirms the match) and then — missing from the
claim — a fallback matching the configured domains against the URL's
network location by containment in either direction, without consulting
`matches_url`; the tab URL goes through both stages before the referrer is
tried, and only when all four stages fail is the record dropped. -/
theorem C1_adapter_resolution (ga : Str → Option Adapter) (fso : FsOracle)
    (config : Config) (st : QueryState) (row : DownloadRow)
    (hex : fso.path_exists row.target_path = true)
    (hpar : fso.resolve_parent row.target_path = some fso.download_dir_resolved)
    (hseen : strLower row.target_path ∉ st.seen_paths) :
    (∀ url, _resolve_adapter ga url config.platforms =
      match specResolveAdapter ga url config.platforms with
      | some r => some r
      | none => fallbackResolveAdapter ga url config.platforms) ∧
    ((_resolve_adapter ga row.tab_url config.platforms = none ∧
      _resolve_adapter ga (optStr row.referrer) config.platforms = none) →
      (queryStep ga fso config st row).results = st.results) ∧
    (∀ a d,
      (match _resolve_adapter ga row.tab_url config.platforms with
       | some r => some r
       | none => _resolve_adapter ga (optStr row.referrer) config.platforms)
        = some (a, d) →
      ∃ cf, (queryStep ga fso config st row).results = st.results ++ [cf] ∧
        cf.platform = a.name ∧ cf.path = row.target_path ∧
        cf.download_url = row.tab_url) := by
  have hstep : queryStep ga fso config st row =
      (match (match _resolve_adapter ga row.tab_url config.platforms with
              | some r => some r
              | none => _resolve_adapter ga (optStr row.referrer) config.platforms) with
       | none => { st with seen_paths := strLower row.target_path :: st.seen_paths }
       | some (adapter, domain) =>
         classifyRow config
           { st with seen_paths := strLower row.target_path :: st.seen_paths }
           row adapter domain) := by
    unfold queryStep
    rw [if_neg (by simp [hex]), hpar]
    dsimp only
    rw [if_neg (by simp), if_neg hseen]
  refine ⟨fun url => resolve_adapter_decomposition ga url config.platforms, ?_, ?_⟩
  · intro hnone
    rw [hstep, hnone.1, hnone.2]
  · intro a d hres
    rw [hstep, hres]
    obtain ⟨cf, hcf, h1, h2, h3, _⟩ := classifyRow_results config
      { st with seen_paths := strLower row.target_path :: st.seen_paths } row a d
    exact ⟨cf, hcf, h1, h2, h3⟩

/-- The C1 record survives the SQL stage: it passes the domain filter and
the descending sort leaves the singleton row set unchanged. -/
theorem c1Row_queried : queriedRows c1Config.platforms [c1Row] = [c1Row] := by
  unfold queriedRows
  rw [show ([c1Row].filter (matchesAnyDomain c1Config.platforms)) = [c1Row] from rfl]
  exact List.perm_singleton.mp (List.mergeSort_perm [c1Row] _)

/-- C1 counterexample: the SQL domain filter admits this record (its
referrer carries the configured Moodle domain), the claim's search finds no
platform on the tab URL and would therefore attribute the record to the
Moodle platform found on the referrer — but the program classifies it as
Canvas: the netloc-containment fallback of `_resolve_adapter`, absent from
the claim, fires on the tab URL before the referrer is ever consulted. -/
theorem C1_counterexample :
    matchesAnyDomain c1Config.platforms c1Row = true ∧
    queriedRows c1Config.platforms [c1Row] = [c1Row] ∧
    specResolveAdapter (get_adapter trivOracles) c1Row.tab_url
      c1Config.platforms = none ∧
    (∃ a, specResolveAdapter (get_adapter trivOracles) (optStr c1Row.referrer)
        c1Config.platforms = some (a, "moodle.school.edu".data) ∧
      a.name = "Moodle".data) ∧
    ((_query_downloads (get_adapter trivOracles) allPassFso c1Config
        (queriedRows c1Config.platforms [c1Row])).1.map (fun cf => cf.platform)
      = ["Canvas".data]) ∧
    "Canvas".data ≠ "Moodle".data := by
  refine ⟨by decide, c1Row_queried, rfl,
    ⟨moodleAdapter (fun _ _ => []) (fun _ _ => none), rfl, rfl⟩, ?_, by decide⟩
  rw [c1Row_queried]
  decide

/-- Witness for the amended C1, on the same SQL-reachable record: the
two-stage resolution attributes it through the tab URL's netloc fallback
and the row loop emits one `ClassifiedFile` named after the Canvas
adapter. -/
theorem C1_adapter_resolution_witness :
    (queriedRows c1Config.platforms [c1Row] = [c1Row] ∧
     allPassFso.path_exists c1Row.target_path = true ∧
     strLower c1Row.target_path ∉ ([] : List Str)) ∧
    (∃ cf,
      (queryStep (get_adapter trivOracles) allPassFso c1Config
        ⟨[], [], [], []⟩ c1Row).results =
        (⟨[], [], [], []⟩ : QueryState).results ++ [cf] ∧
      cf.platform = (canvasAdapter (fun _ _ => []) (fun _ _ => none)).name ∧
      cf.path = c1Row.target_path ∧
      cf.download_url = c1Row.tab_url) :=
  ⟨⟨c1Row_queried, rfl, by simp⟩,
   (C1_adapter_resolution (get_adapter trivOracles) allPassFso c1Config
      ⟨[], [], [], []⟩ c1Row rfl rfl (by simp)).2.2
     (canvasAdapter (fun _ _ => []) (fun _ _ => none)) "foo.bar.edu".data rfl⟩

/-! Association-list lookups (used by the discovery cache) -/
theorem lookup_append_some {α β : Type} [BEq α] {l₁ l₂ : List (α × β)} {k : α} {v : β}
    (h : l₁.lookup k = some v) : (l₁ ++ l₂).lookup k = some v := by
  induction l₁ with
  | nil => simp [List.lookup] at h
  | cons p t ih =>
    obtain ⟨a, b⟩ := p
    cases hka : k == a
    · simp only [List.lookup, hka] at h
      simp only [List.cons_append, List.lookup, hka]
      exact ih h
    · simp only [List.lookup, hka] at h
      simp only [List.cons_append, List.lookup, hka]
      exact h

theorem lookup_append_none {α β : Type} [BEq α] {l₁ l₂ : List (α × β)} {k : α}
    (h : l₁.lookup k = none) : (l₁ ++ l₂).lookup k = l₂.lookup k := by
  induction l₁ with
  | nil => simp
  | cons p t ih =>
    obtain ⟨a, b⟩ := p
    cases hka : k == a
    · simp only [List.lookup, hka] at h
      simp only [List.cons_append, List.lookup, hka]
      exact ih h
    · simp only [List.lookup, hka] at h
      exact absurd h (by simp)

theorem lookup_none_not_mem {α β : Type} [BEq α] [LawfulBEq α]
    {l : List (α × β)} {k : α} (h : l.lookup k = none) : k ∉ l.map Prod.fst := by
  induction l with
  | nil => simp
  | cons p t ih =>
    obtain ⟨a, b⟩ := p
    cases hka : k == a
    · simp only [List.lookup, hka] at h
      simp only [List.map_cons, List.mem_cons, not_or]
      exact ⟨by simpa using hka, ih h⟩
    · simp only [List.lookup, hka] at h
      exact absurd h (by simp)

/-- A row failing either filter leaves the state untouched. -/
theorem queryStep_not_passes (ga : Str → Option Adapter) (fso : FsOracle)
    (config : Config) (st : QueryState) (row : DownloadRow)
    (h : ¬ passesFilters fso row) : queryStep ga fso config st row = st := by
  unfold queryStep
  by_cases h1 : fso.path_exists row.target_path = true
  · rw [if_neg (by simp [h1])]
    cases h2 : fso.resolve_parent row.target_path with
    | none => rfl
    | some parent =>
      dsimp only
      rw [if_pos ?_]
      intro hpd
      exact h ⟨h1, by rw [h2, hpd]⟩
  · rw [if_pos (by simpa using h1)]

/-- A row whose key was already seen leaves the state untouched. -/
theorem queryStep_seen (ga : Str → Option Adapter) (fso : FsOracle)
    (config : Config) (st : QueryState) (row : DownloadRow)
    (hp : passesFilters fso row)
    (hs : strLower row.target_path ∈ st.seen_paths) :
    queryStep ga fso config st row = st := by
  unfold queryStep
  rw [if_neg (by simp [hp.1]), hp.2]
  dsimp only
  rw [if_neg (by simp), if_pos hs]

/-- A fresh row marks its key as seen and then either resolves an adapter
(continuing with `classifyRow`) or is dropped. -/
theorem queryStep_fresh (ga : Str → Option Adapter) (fso : FsOracle)
    (config : Config) (st : QueryState) (row : DownloadRow)
    (hp : passesFilters fso row)
    (hs : strLower row.target_path ∉ st.seen_paths) :
    queryStep ga fso config st row =
      match (match _resolve_adapter ga row.tab_url config.platforms with
             | some r => some r
             | none => _resolve_adapter ga (optStr row.referrer) config.platforms) with
      | none => { st with seen_paths := strLower row.target_path :: st.seen_paths }
      | some (adapter, domain) =>
        classifyRow config
          { st with seen_paths := strLower row.target_path :: st.seen_paths }
          row adapter domain := by
  unfold queryStep
  rw [if_neg (by simp [hp.1]), hp.2]
  dsimp only
  rw [if_neg (by simp), if_neg hs]

/-- The `classifyRow` never touches the dedup set. -/
theorem classifyRow_seen (config : Config) (st : QueryState) (row : DownloadRow)
    (adapter : Adapter) (domain : Str) :
    (classifyRow config st row adapter domain).seen_paths = st.seen_paths := by
  unfold classifyRow
  dsimp only
  by_cases hA : (¬ (resolveCourseId adapter row domain).isEmpty = true ∧
      ((config.courses.lookup (resolveCourseId adapter row domain)).isSome = true))
  · simp only [if_pos hA]
  · simp only [if_neg hA]
    by_cases hB : ¬ (resolveCourseId adapter row domain).isEmpty = true
    · simp only [if_pos hB]
      by_cases hC : ((st.discovered.lookup (resolveCourseId adapter row domain)).isSome
          = true)
      · simp only [if_pos hC]
      · simp only [if_neg hC]
    · simp only [if_neg hB]

/-- Observable effect of one fresh row: the key is recorded, and at most one
`ClassifiedFile` — carrying the row's path and tab URL — is appended. -/
theorem queryStep_fresh_spec (ga : Str → Option Adapter) (fso : FsOracle)
    (config : Config) (st : QueryState) (row : DownloadRow)
    (hp : passesFilters fso row)
    (hs : strLower row.target_path ∉ st.seen_paths) :
    (queryStep ga fso config st row).seen_paths =
      strLower row.target_path :: st.seen_paths ∧
    ((queryStep ga fso config st row).results = st.results ∨
      ∃ cf, (queryStep ga fso config st row).results = st.results ++ [cf] ∧
        cf.path = row.target_path ∧ cf.download_url = row.tab_url) := by
  rw [queryStep_fresh ga fso config st row hp hs]
  cases hres : (match _resolve_adapter ga row.tab_url config.platforms with
                | some r => some r
                | none => _resolve_adapter ga (optStr row.referrer) config.platforms) with
  | none => exact ⟨rfl, Or.inl rfl⟩
  | some pair =>
    obtain ⟨adapter, domain⟩ := pair
    obtain ⟨cf, hcf, _, hpath, hurl, _⟩ := classifyRow_results config
      { st with seen_paths := strLower row.target_path :: st.seen_paths }
      row adapter domain
    exact ⟨classifyRow_seen config _ row adapter domain, Or.inr ⟨cf, hcf, hpath, hurl⟩⟩

/-! Claim C3: deduplication -/
theorem queryFold_append_singleton (ga : Str → Option Adapter) (fso : FsOracle)
    (config : Config) (rows : List DownloadRow) (row : DownloadRow) :
    queryFold ga fso config (rows ++ [row]) =
      queryStep ga fso config (queryFold ga fso config rows) row := by
  simp [queryFold, List.foldl_append]

/-- Running invariants of the row loop: the dedup set holds exactly the keys
of the filter-passing rows processed so far, every emitted file's key is in
the dedup set, the emitted keys are duplicate-free, and every emitted file
stems from the first row bearing its key. -/
theorem queryFold_key_facts (ga : Str → Option Adapter) (fso : FsOracle)
    (config : Config) (rows : List DownloadRow) :
    (∀ r ∈ rows, ∀ r' ∈ rows,
      strLower r.target_path = strLower r'.target_path →
      fso.path_exists r.target_path = fso.path_exists r'.target_path ∧
      fso.resolve_parent r.target_path = fso.resolve_parent r'.target_path) →
    ((∀ k, k ∈ (queryFold ga fso config rows).seen_paths ↔
        ∃ r ∈ rows, passesFilters fso r ∧ strLower r.target_path = k) ∧
     (∀ cf ∈ (queryFold ga fso config rows).results,
        strLower cf.path ∈ (queryFold ga fso config rows).seen_paths) ∧
     (((queryFold ga fso config rows).results.map (fun cf => strLower cf.path)).Nodup) ∧
     (∀ cf ∈ (queryFold ga fso config rows).results,
        ∃ n, ∃ hn : n < rows.length,
          cf.path = (rows.get ⟨n, hn⟩).target_path ∧
          cf.download_url = (rows.get ⟨n, hn⟩).tab_url ∧
          ∀ r' ∈ rows.take n, strLower r'.target_path ≠ strLower cf.path)) := by
  induction rows using List.reverseRecOn with
  | nil =>
    intro _
    refine ⟨?_, ?_, ?_, ?_⟩ <;> simp [queryFold]
  | append_singleton rows row ih =>
    intro hkey
    have hkey' : ∀ r ∈ rows, ∀ r' ∈ rows,
        strLower r.target_path = strLower r'.target_path →
        fso.path_exists r.target_path = fso.path_exists r'.target_path ∧
        fso.resolve_parent r.target_path = fso.resolve_parent r'.target_path :=
      fun r hr r' hr' =>
        hkey r (List.mem_append_left _ hr) r' (List.mem_append_left _ hr')
    obtain ⟨K1, K2, K3, K4⟩ := ih hkey'
    rw [queryFold_append_singleton]
    -- extending an origin certificate from `rows` to `rows ++ [row]`
    have hK4ext : ∀ cf : ClassifiedFile, (∃ n, ∃ hn : n < rows.length,
        cf.path = (rows.get ⟨n, hn⟩).target_path ∧
        cf.download_url = (rows.get ⟨n, hn⟩).tab_url ∧
        ∀ r' ∈ rows.take n, strLower r'.target_path ≠ strLower cf.path) →
        (∃ n, ∃ hn : n < (rows ++ [row]).length,
          cf.path = ((rows ++ [row]).get ⟨n, hn⟩).target_path ∧
          cf.download_url = ((rows ++ [row]).get ⟨n, hn⟩).tab_url ∧
          ∀ r' ∈ (rows ++ [row]).take n,
            strLower r'.target_path ≠ strLower cf.path) := by
      rintro cf ⟨n, hn, h1, h2, h3⟩
      refine ⟨n, by simp; omega, ?_, ?_, ?_⟩
      · rw [List.get_append n hn]
        exact h1
      · rw [List.get_append n hn]
        exact h2
      · rw [List.take_append_of_le_length (Nat.le_of_lt hn)]
        exact h3
    by_cases hp : passesFilters fso row
    · by_cases hs : strLower row.target_path ∈ (queryFold ga fso config rows).seen_paths
      · -- duplicate of an earlier key: nothing changes
        rw [queryStep_seen ga fso config _ row hp hs]
        refine ⟨?_, K2, K3, fun cf hcf => hK4ext cf (K4 cf hcf)⟩
        intro k
        rw [K1 k]
        constructor
        · rintro ⟨r, hr, h1, h2⟩
          exact ⟨r, List.mem_append_left _ hr, h1, h2⟩
        · rintro ⟨r, hr, h1, h2⟩
          rcases List.mem_append.mp hr with hr | hr
          · exact ⟨r, hr, h1, h2⟩
          · have hrr : r = row := by simpa using hr
            subst hrr
            subst h2
            exact (K1 _).mp hs
      · -- fresh key
        obtain ⟨hseen', hres'⟩ := queryStep_fresh_spec ga fso config _ row hp hs
        have hK1' : ∀ k, k ∈ (queryStep ga fso config
            (queryFold ga fso config rows) row).seen_paths ↔
            ∃ r ∈ rows ++ [row], passesFilters fso r ∧ strLower r.target_path = k := by
          intro k
          rw [hseen', List.mem_cons, K1 k]
          constructor
          · rintro (rfl | ⟨r, hr, h1, h2⟩)
            · exact ⟨row, List.mem_append_right _ (by simp), hp, rfl⟩
            · exact ⟨r, List.mem_append_left _ hr, h1, h2⟩
          · rintro ⟨r, hr, h1, h2⟩
            rcases List.mem_append.mp hr with hr | hr
            · exact Or.inr ⟨r, hr, h1, h2⟩
            · have hrr : r = row := by simpa using hr
              subst hrr
              exact Or.inl h2.symm
        -- no earlier row carries this key
        have hfirst : ∀ r' ∈ rows, strLower r'.target_path ≠ strLower row.target_path := by
          intro r' hr' heq
          have hk := hkey r' (List.mem_append_left _ hr') row
            (List.mem_append_right _ (by simp)) heq
          have hp' : passesFilters fso r' := ⟨hk.1.symm ▸ hp.1, by
            rw [hk.2]
            exact hp.2⟩
          exact hs ((K1 _).mpr ⟨r', hr', hp', heq⟩)
        rcases hres' with hsame | ⟨cf, hcf, hpath, hurl⟩
        · refine ⟨hK1', ?_, ?_, ?_⟩
          · intro cf hcf
            rw [hsame] at hcf
            rw [hseen']
            exact List.mem_cons_of_mem _ (K2 cf hcf)
          · rw [hsame]
            exact K3
          · intro cf hcf
            rw [hsame] at hcf
            exact hK4ext cf (K4 cf hcf)
        · refine ⟨hK1', ?_, ?_, ?_⟩
          · intro cf' hcf'
            rw [hcf] at hcf'
            rw [hseen']
            rcases List.mem_append.mp hcf' with h | h
            · exact List.mem_cons_of_mem _ (K2 cf' h)
            · have : cf' = cf := by simpa using h
              subst this
              rw [hpath]
              exact List.mem_cons_self _ _
          · rw [hcf]
            simp only [List.map_append, List.map_cons, List.map_nil]
            rw [List.nodup_append]
            refine ⟨K3, by simp, ?_⟩
            intro k hk hk'
            have hk2 : k = strLower row.target_path := by
              simp only [List.mem_singleton, List.mem_cons, hpath] at hk'
              simpa [hpath] using hk'
            subst hk2
            obtain ⟨cf0, hcf0, hcfk⟩ := List.mem_map.mp hk
            exact hs (hcfk ▸ K2 cf0 hcf0)
          · intro cf' hcf'
            rw [hcf] at hcf'
            rcases List.mem_append.mp hcf' with h | h
            · exact hK4ext cf' (K4 cf' h)
            · have : cf' = cf := by simpa using h
              subst this
              have hlen : rows.length < (rows ++ [row]).length := by simp
              refine ⟨rows.length, hlen, ?_, ?_, ?_⟩
              · rw [List.get_eq_getElem,
                  List.getElem_concat_length rows row rows.length rfl]
                exact hpath
              · rw [List.get_eq_getElem,
                  List.getElem_concat_length rows row rows.length rfl]
                exact hurl
              · rw [List.take_left]
                intro r' hr'
                rw [hpath]
                exact hfirst r' hr'
    · -- the row fails a filter: nothing changes
      rw [queryStep_not_passes ga fso config _ row hp]
      refine ⟨?_, K2, K3, fun cf hcf => hK4ext cf (K4 cf hcf)⟩
      intro k
      rw [K1 k]
      constructor
      · rintro ⟨r, hr, h1, h2⟩
        exact ⟨r, List.mem_append_left _ hr, h1, h2⟩
      · rintro ⟨r, hr, h1, h2⟩
        rcases List.mem_append.mp hr with hr | hr
        · exact ⟨r, hr, h1, h2⟩
        · have hrr : r = row := by simpa using hr
          subst hrr
          exact absurd h1 hp

/-- C3: two download records whose target paths agree case-insensitively
yield at most one `ClassifiedFile` (the emitted keys are duplicate-free),
and every emitted file stems from the first record in the processed order
(descending start time) that carries its key — provided the per-file
filters, which depend only on the file, agree on records with equal keys. -/
theorem C3_dedup (ga : Str → Option Adapter) (fso : FsOracle) (config : Config)
    (rows : List DownloadRow)
    (hkey : ∀ r ∈ rows, ∀ r' ∈ rows,
      strLower r.target_path = strLower r'.target_path →
      fso.path_exists r.target_path = fso.path_exists r'.target_path ∧
      fso.resolve_parent r.target_path = fso.resolve_parent r'.target_path) :
    (((_query_downloads ga fso config rows).1.map
        (fun cf => strLower cf.path)).Nodup) ∧
    (∀ cf ∈ (_query_downloads ga fso config rows).1,
      ∃ n, ∃ hn : n < rows.length,
        cf.path = (rows.get ⟨n, hn⟩).target_path ∧
        cf.download_url = (rows.get ⟨n, hn⟩).tab_url ∧
        ∀ r' ∈ rows.take n, strLower r'.target_path ≠ strLower cf.path) := by
  obtain ⟨_, _, K3, K4⟩ := queryFold_key_facts ga fso config rows hkey
  exact ⟨K3, K4⟩

/-- Witness for C3 on two same-key rows. -/
theorem C3_dedup_witness :
    (∀ r ∈ c3Rows, ∀ r' ∈ c3Rows,
      strLower r.target_path = strLower r'.target_path →
      allPassFso.path_exists r.target_path = allPassFso.path_exists r'.target_path ∧
      allPassFso.resolve_parent r.target_path =
        allPassFso.resolve_parent r'.target_path) ∧
    (((_query_downloads (get_adapter trivOracles) allPassFso cexC1Config c3Rows).1.map
        (fun cf => strLower cf.path)).Nodup) :=
  ⟨by decide,
   (C3_dedup (get_adapter trivOracles) allPassFso cexC1Config c3Rows (by decide)).1⟩

/-! Claim C4: course naming and discovery caching -/
/-- One matched row preserves the discovery-cache invariants: discovery
calls and cache entries stay aligned one-to-one (so no ID is queried
twice), cached IDs are exactly the unmapped ones, every call's outcome is
cached (synthesised when empty), and configured names win. -/
theorem classifyRow_preserves (config : Config) (st : QueryState)
    (row : DownloadRow) (adapter : Adapter) (domain : Str)
    (hun : config.courses.lookup "unknown".data = none)
    (p1 : st.discovered.map Prod.fst = st.discover_calls.map Prod.fst)
    (p2 : (st.discovered.map Prod.fst).Nodup)
    (p3 : ∀ pr ∈ st.discovered, config.courses.lookup pr.1 = none)
    (p4 : ∀ pr ∈ st.discover_calls, st.discovered.lookup pr.1 =
      some (if pr.2.isEmpty then newCourseName pr.1 else pr.2))
    (p5 : ∀ cf ∈ st.results, ∀ nm, config.courses.lookup cf.course_id = some nm →
      cf.course_name = nm) :
    ((classifyRow config st row adapter domain).discovered.map Prod.fst =
      (classifyRow config st row adapter domain).discover_calls.map Prod.fst) ∧
    (((classifyRow config st row adapter domain).discovered.map Prod.fst).Nodup) ∧
    (∀ pr ∈ (classifyRow config st row adapter domain).discovered,
      config.courses.lookup pr.1 = none) ∧
    (∀ pr ∈ (classifyRow config st row adapter domain).discover_calls,
      (classifyRow config st row adapter domain).discovered.lookup pr.1 =
        some (if pr.2.isEmpty then newCourseName pr.1 else pr.2)) ∧
    (∀ cf ∈ (classifyRow config st row adapter domain).results, ∀ nm,
      config.courses.lookup cf.course_id = some nm → cf.course_name = nm) := by
  unfold classifyRow
  dsimp only
  by_cases hA : (¬ (resolveCourseId adapter row domain).isEmpty = true ∧
      ((config.courses.lookup (resolveCourseId adapter row domain)).isSome = true))
  · simp only [if_pos hA]
    refine ⟨p1, p2, p3, p4, ?_⟩
    intro cf hcf nm hnm
    rcases List.mem_append.mp hcf with h | h
    · exact p5 cf h nm hnm
    · have hcf' : cf = ⟨row.target_path,
          pyOr (resolveCourseId adapter row domain) "unknown".data,
          (config.courses.lookup (resolveCourseId adapter row domain)).getD [],
          row.tab_url, adapter.name, "Other".data⟩ := by simpa using h
      subst hcf'
      have hpy : pyOr (resolveCourseId adapter row domain) "unknown".data =
          resolveCourseId adapter row domain := by
        unfold pyOr
        rw [if_neg hA.1]
      simp only [hpy] at hnm ⊢
      rw [hnm]
      rfl
  · simp only [if_neg hA]
    by_cases hB : ¬ (resolveCourseId adapter row domain).isEmpty = true
    · simp only [if_pos hB]
      have hcourses : config.courses.lookup (resolveCourseId adapter row domain) =
          none := by
        rcases hcl : config.courses.lookup (resolveCourseId adapter row domain) with
          _ | v
        · rfl
        · exact absurd ⟨hB, by rw [hcl]; rfl⟩ hA
      have hpy : pyOr (resolveCourseId adapter row domain) "unknown".data =
          resolveCourseId adapter row domain := by
        unfold pyOr
        rw [if_neg hB]
      by_cases hC : ((st.discovered.lookup (resolveCourseId adapter row domain)).isSome
          = true)
      · simp only [if_pos hC]
        refine ⟨p1, p2, p3, p4, ?_⟩
        intro cf hcf nm hnm
        rcases List.mem_append.mp hcf with h | h
        · exact p5 cf h nm hnm
        · have hcf' : cf = ⟨row.target_path,
              pyOr (resolveCourseId adapter row domain) "unknown".data,
              (st.discovered.lookup (resolveCourseId adapter row domain)).getD [],
              row.tab_url, adapter.name, "Other".data⟩ := by simpa using h
          subst hcf'
          simp only [hpy] at hnm
          rw [hcourses] at hnm
          exact absurd hnm (by simp)
      · simp only [if_neg hC]
        have hdisc : st.discovered.lookup (resolveCourseId adapter row domain) =
            none := Option.not_isSome_iff_eq_none.mp hC
        have hnotmem : (resolveCourseId adapter row domain) ∉
            st.discovered.map Prod.fst := lookup_none_not_mem hdisc
        refine ⟨?_, ?_, ?_, ?_, ?_⟩
        · simp only [List.map_append, List.map_cons, List.map_nil, p1]
        · simp only [List.map_append, List.map_cons, List.map_nil]
          rw [List.nodup_append]
          exact ⟨p2, by simp, by
            intro k hk hk'
            have : k = resolveCourseId adapter row domain := by simpa using hk'
            subst this
            exact hnotmem hk⟩
        · intro pr hpr
          rcases List.mem_append.mp hpr with h | h
          · exact p3 pr h
          · have : pr = (resolveCourseId adapter row domain,
                if (adapter.discover_course_name
                    (resolveCourseId adapter row domain) domain).isEmpty then
                  newCourseName (resolveCourseId adapter row domain)
                else adapter.discover_course_name
                  (resolveCourseId adapter row domain) domain) := by simpa using h
            rw [this]
            exact hcourses
        · intro pr hpr
          rcases List.mem_append.mp hpr with h | h
          · exact lookup_append_some (p4 pr h)
          · have hpr' : pr = (resolveCourseId adapter row domain,
                adapter.discover_course_name
                  (resolveCourseId adapter row domain) domain) := by simpa using h
            subst hpr'
            rw [lookup_append_none hdisc]
            simp [List.lookup]
        · intro cf hcf nm hnm
          rcases List.mem_append.mp hcf with h | h
          · exact p5 cf h nm hnm
          · have hcf' : cf = ⟨row.target_path,
                pyOr (resolveCourseId adapter row domain) "unknown".data,
                ((st.discovered ++
                  [(resolveCourseId adapter row domain,
                    if (adapter.discover_course_name
                        (resolveCourseId adapter row domain) domain).isEmpty then
                      newCourseName (resolveCourseId adapter row domain)
                    else adapter.discover_course_name
                      (resolveCourseId adapter row domain) domain)]).lookup
                  (resolveCourseId adapter row domain)).getD [],
                row.tab_url, adapter.name, "Other".data⟩ := by simpa using h
            subst hcf'
            simp only [hpy] at hnm
            rw [hcourses] at hnm
            exact absurd hnm (by simp)
    · simp only [if_neg hB]
      refine ⟨p1, p2, p3, p4, ?_⟩
      intro cf hcf nm hnm
      rcases List.mem_append.mp hcf with h | h
      · exact p5 cf h nm hnm
      · have hcf' : cf = ⟨row.target_path,
            pyOr (resolveCourseId adapter row domain) "unknown".data,
            "Unknown Course".data, row.tab_url, adapter.name, "Other".data⟩ := by
          simpa using h
        subst hcf'
        have hpy : pyOr (resolveCourseId adapter row domain) "unknown".data =
            "unknown".data := by
          unfold pyOr
          rw [if_pos (by simpa using hB)]
        simp only [hpy] at hnm
        rw [hun] at hnm
        exact absurd hnm (by simp)

/-- The discovery-cache invariants pass through a whole row. -/
theorem queryStep_preserves (ga : Str → Option Adapter) (fso : FsOracle)
    (config : Config) (st : QueryState) (row : DownloadRow)
    (hun : config.courses.lookup "unknown".data = none)
    (p1 : st.discovered.map Prod.fst = st.discover_calls.map Prod.fst)
    (p2 : (st.discovered.map Prod.fst).Nodup)
    (p3 : ∀ pr ∈ st.discovered, config.courses.lookup pr.1 = none)
    (p4 : ∀ pr ∈ st.discover_calls, st.discovered.lookup pr.1 =
      some (if pr.2.isEmpty then newCourseName pr.1 else pr.2))
    (p5 : ∀ cf ∈ st.results, ∀ nm, config.courses.lookup cf.course_id = some nm →
      cf.course_name = nm) :
    (((queryStep ga fso config st row).discovered.map Prod.fst =
       (queryStep ga fso config st row).discover_calls.map Prod.fst) ∧
     (((queryStep ga fso config st row).discovered.map Prod.fst).Nodup) ∧
     (∀ pr ∈ (queryStep ga fso config st row).discovered,
       config.courses.lookup pr.1 = none) ∧
     (∀ pr ∈ (queryStep ga fso config st row).discover_calls,
       (queryStep ga fso config st row).discovered.lookup pr.1 =
         some (if pr.2.isEmpty then newCourseName pr.1 else pr.2)) ∧
     (∀ cf ∈ (queryStep ga fso config st row).results, ∀ nm,
       config.courses.lookup cf.course_id = some nm → cf.course_name = nm)) := by
  by_cases hp : passesFilters fso row
  · by_cases hs : strLower row.target_path ∈ st.seen_paths
    · rw [queryStep_seen ga fso config st row hp hs]
      exact ⟨p1, p2, p3, p4, p5⟩
    · rw [queryStep_fresh ga fso config st row hp hs]
      cases hres : (match _resolve_adapter ga row.tab_url config.platforms with
                    | some r => some r
                    | none =>
                      _resolve_adapter ga (optStr row.referrer) config.platforms) with
      | none => exact ⟨p1, p2, p3, p4, p5⟩
      | some pair =>
        obtain ⟨adapter, domain⟩ := pair
        exact classifyRow_preserves config
          { st with seen_paths := strLower row.target_path :: st.seen_paths }
          row adapter domain hun p1 p2 p3 p4 p5
  · rw [queryStep_not_passes ga fso config st row hp]
    exact ⟨p1, p2, p3, p4, p5⟩

/-- C4: configured course names always win and configured IDs never appear
as new courses; an unmapped ID triggers `discover_course_name` at most once
per scan (the cache and call log stay aligned one-to-one), an empty
discovery result is cached as the synthesised `New Course (<first 8 chars of
the id>)`, and each discovered ID is reported exactly once as a `NewCourse`,
in discovery order. -/
theorem C4_course_naming (ga : Str → Option Adapter) (fso : FsOracle)
    (config : Config) (rows : List DownloadRow)
    (hun : config.courses.lookup "unknown".data = none) :
    (∀ cf ∈ (_query_downloads ga fso config rows).1, ∀ nm,
      config.courses.lookup cf.course_id = some nm → cf.course_name = nm) ∧
    (∀ nc ∈ (_query_downloads ga fso config rows).2,
      config.courses.lookup nc.course_id = none) ∧
    (((queryFold ga fso config rows).discover_calls.map Prod.fst).Nodup) ∧
    (∀ pr ∈ (queryFold ga fso config rows).discover_calls,
      (queryFold ga fso config rows).discovered.lookup pr.1 =
        some (if pr.2.isEmpty then newCourseName pr.1 else pr.2)) ∧
    ((_query_downloads ga fso config rows).2.map (fun nc => nc.course_id) =
      (queryFold ga fso config rows).discover_calls.map Prod.fst) := by
  have hP := foldl_preserve
    (P := fun st : QueryState =>
      (st.discovered.map Prod.fst = st.discover_calls.map Prod.fst) ∧
      ((st.discovered.map Prod.fst).Nodup) ∧
      (∀ pr ∈ st.discovered, config.courses.lookup pr.1 = none) ∧
      (∀ pr ∈ st.discover_calls, st.discovered.lookup pr.1 =
        some (if pr.2.isEmpty then newCourseName pr.1 else pr.2)) ∧
      (∀ cf ∈ st.results, ∀ nm, config.courses.lookup cf.course_id = some nm →
        cf.course_name = nm))
    (fun st row hP =>
      queryStep_preserves ga fso config st row hun hP.1 hP.2.1 hP.2.2.1
        hP.2.2.2.1 hP.2.2.2.2)
    rows ⟨[], [], [], []⟩ (by refine ⟨rfl, ?_, ?_, ?_, ?_⟩ <;> simp)
  obtain ⟨q1, q2, q3, q4, q5⟩ := hP
  refine ⟨q5, ?_, q1 ▸ q2, q4, ?_⟩
  · intro nc hnc
    simp only [_query_downloads] at hnc
    obtain ⟨pr, hpr, hpr2⟩ := List.mem_map.mp hnc
    rw [← hpr2]
    exact q3 pr hpr
  · have hmm : ((_query_downloads ga fso config rows).2).map (fun nc => nc.course_id) =
        (queryFold ga fso config rows).discovered.map Prod.fst := by
      simp only [_query_downloads, List.map_map]
      rfl
    exact hmm.trans q1

/-- Witness for C4: the single discovered ID is reported exactly once. -/
theorem C4_course_naming_witness :
    (cexC1Config.courses.lookup "unknown".data = none) ∧
    ((_query_downloads (get_adapter trivOracles) allPassFso cexC1Config
        [c4Row]).2.map (fun nc => nc.course_id) =
      (queryFold (get_adapter trivOracles) allPassFso cexC1Config
        [c4Row]).discover_calls.map Prod.fst) :=
  ⟨rfl,
   (C4_course_naming (get_adapter trivOracles) allPassFso cexC1Config
     [c4Row] rfl).2.2.2.2⟩

end SFC

